import Mathlib

/-!
# Verification of the Glassdoor scraping pipeline
Shallow embedding of `src/webscrapping/glassdoor.py`.

The extraction pipeline consists of `_strip_html` (HTML-to-text
normalization via a chain of `re.sub` rewrites), `_parse_json_ld`
(structured-metadata extraction from JSON-LD script blocks) and the
per-field merge in `get_jobs` (JSON-LD value first, DOM fallback second,
sentinel `"-1"` on failure).

Modelling conventions:
* Strings are processed as `List Char`; each `re.sub` call is embedded as
  a structural left-to-right scanner with exactly the leftmost-match,
  non-overlapping semantics of Python's `re.sub` on its pattern.
* Python's `\s` class is modelled over the ASCII range
  (space, tab, newline, carriage return, vertical tab, form feed).
* JSON values are an inductive `Json`; objects are association lists
  (a `json.loads` dict holds one value per key), numbers are integers.
* A `<script type="application/ld+json">` block is an `Option Json`:
  `none` stands for a block whose text is empty or fails `json.loads`
  (the code skips both), `some v` for a block that parses to `v`.
* Selenium lookups are `Option String`: `none` when `find_element`
  raises (element absent or any other error), `some t` for the found
  element's `.text`.
* A truthy non-string `description` value makes `re.sub` raise a
  `TypeError` that nothing catches; this crash is modelled as
  `Except.error ()`.
-/

/-! ## Character classes (Python `\s`, `[ \t]`, `str.strip`) -/

def isPyWs (c : Char) : Bool :=
  c = ' ' || c = '\t' || c = '\n' || c = '\r' || c = '\x0b' || c = '\x0c'

def isSpTab (c : Char) : Bool :=
  c = ' ' || c = '\t'

/-! ## `re.sub(r"<br\s*/?>", "\n", text, flags=re.I)`

State machine scanning one character at a time.  The state records the
literal characters of a partially matched `<br` tag so they can be
re-emitted verbatim when the match fails (the regex engine then resumes
scanning right after the `<`; none of the re-emitted characters can
start a new match except a failing `<` itself, which re-enters the
after-`<` state). -/

inductive BrState where
  | n0                                   -- not inside a candidate match
  | n1                                   -- seen "<"
  | n2 (b : Char)                        -- seen "<b" (either case)
  | n3 (b r : Char) (ws : List Char)     -- seen "<br" plus whitespace
  | n4 (b r : Char) (ws : List Char)     -- seen "<br" plus whitespace plus "/"
deriving Repr

/-- Literal text represented by a partial-match state. -/
def BrState.pend : BrState → List Char
  | .n0 => []
  | .n1 => ['<']
  | .n2 b => ['<', b]
  | .n3 b r ws => '<' :: b :: r :: ws
  | .n4 b r ws => '<' :: b :: r :: ws ++ ['/']

def subBrGo : BrState → List Char → List Char
  | st, [] => st.pend
  | .n0, c :: rest =>
    if c = '<' then subBrGo .n1 rest else c :: subBrGo .n0 rest
  | .n1, c :: rest =>
    if c = 'b' || c = 'B' then subBrGo (.n2 c) rest
    else if c = '<' then '<' :: subBrGo .n1 rest
    else '<' :: c :: subBrGo .n0 rest
  | .n2 b, c :: rest =>
    if c = 'r' || c = 'R' then subBrGo (.n3 b c []) rest
    else if c = '<' then '<' :: b :: subBrGo .n1 rest
    else '<' :: b :: c :: subBrGo .n0 rest
  | .n3 b r ws, c :: rest =>
    if isPyWs c then subBrGo (.n3 b r (ws ++ [c])) rest
    else if c = '>' then '\n' :: subBrGo .n0 rest
    else if c = '/' then subBrGo (.n4 b r ws) rest
    else if c = '<' then ('<' :: b :: r :: ws) ++ subBrGo .n1 rest
    else ('<' :: b :: r :: ws) ++ c :: subBrGo .n0 rest
  | .n4 b r ws, c :: rest =>
    if c = '>' then '\n' :: subBrGo .n0 rest
    else if c = '<' then ('<' :: b :: r :: ws ++ ['/']) ++ subBrGo .n1 rest
    else ('<' :: b :: r :: ws ++ ['/']) ++ c :: subBrGo .n0 rest

def subBr (l : List Char) : List Char := subBrGo .n0 l

/-! ## `re.sub(r"</p\s*>", "\n", text, flags=re.I)` -/

inductive PState where
  | m0                          -- not inside a candidate match
  | m1                          -- seen "<"
  | m2                          -- seen "</"
  | m3 (p : Char) (ws : List Char)  -- seen "</p" plus whitespace
deriving Repr

def PState.pend : PState → List Char
  | .m0 => []
  | .m1 => ['<']
  | .m2 => ['<', '/']
  | .m3 p ws => '<' :: '/' :: p :: ws

def subPGo : PState → List Char → List Char
  | st, [] => st.pend
  | .m0, c :: rest =>
    if c = '<' then subPGo .m1 rest else c :: subPGo .m0 rest
  | .m1, c :: rest =>
    if c = '/' then subPGo .m2 rest
    else if c = '<' then '<' :: subPGo .m1 rest
    else '<' :: c :: subPGo .m0 rest
  | .m2, c :: rest =>
    if c = 'p' || c = 'P' then subPGo (.m3 c []) rest
    else if c = '<' then '<' :: '/' :: subPGo .m1 rest
    else '<' :: '/' :: c :: subPGo .m0 rest
  | .m3 p ws, c :: rest =>
    if isPyWs c then subPGo (.m3 p (ws ++ [c])) rest
    else if c = '>' then '\n' :: subPGo .m0 rest
    else if c = '<' then ('<' :: '/' :: p :: ws) ++ subPGo .m1 rest
    else ('<' :: '/' :: p :: ws) ++ c :: subPGo .m0 rest

def subP (l : List Char) : List Char := subPGo .m0 l

/-! ## `re.sub(r"<[^>]+>", " ", text)`

A match starts at a `<`, swallows one or more non-`>` characters
(including further `<`s) and ends at the first following `>`.  The state
holds the characters accumulated after an open `<`; they are flushed
verbatim when the input ends without a closing `>` (the regex rescan of
that region finds no further match, since no `>` follows any position). -/

def subTagGo : Option (List Char) → List Char → List Char
  | none, [] => []
  | none, c :: rest =>
    if c = '<' then subTagGo (some []) rest else c :: subTagGo none rest
  | some pend, [] => '<' :: pend
  | some pend, c :: rest =>
    if c = '>' then
      if pend.isEmpty then '<' :: '>' :: subTagGo none rest
      else ' ' :: subTagGo none rest
    else subTagGo (some (pend ++ [c])) rest

def subTag (l : List Char) : List Char := subTagGo none l

/-! ## `re.sub(r"&nbsp;", " ", text)` and `re.sub(r"&amp;", "&", text)` -/

def subNbsp : List Char → List Char
  | '&' :: 'n' :: 'b' :: 's' :: 'p' :: ';' :: rest => ' ' :: subNbsp rest
  | c :: rest => c :: subNbsp rest
  | [] => []

def subAmp : List Char → List Char
  | '&' :: 'a' :: 'm' :: 'p' :: ';' :: rest => '&' :: subAmp rest
  | c :: rest => c :: subAmp rest
  | [] => []

/-! ## `re.sub(r"\s+\n", "\n", text)`

Within a maximal whitespace run, the greedy match covers everything up
to the run's last newline (provided a newline occurs past the run's
first character), and is replaced by a single newline; the run's tail
after that newline is untouched.  A run whose only newline is its first
character admits no match.  Both cases coincide with collapsing the
run's prefix up to its last newline, so the scanner buffers the current
whitespace run and flushes it through `flushRun`. -/

def flushRun (run : List Char) : List Char :=
  if '\n' ∈ run then '\n' :: (run.reverse.takeWhile (· ≠ '\n')).reverse
  else run

def subWsNlGo (run : List Char) : List Char → List Char
  | [] => flushRun run
  | c :: rest =>
    if isPyWs c then subWsNlGo (run ++ [c]) rest
    else flushRun run ++ c :: subWsNlGo [] rest

def subWsNl (l : List Char) : List Char := subWsNlGo [] l

/-! ## `re.sub(r"\n\s+", "\n", text)`

After emitting a newline the scanner drops any directly following
whitespace (the greedy `\s+`), matching left to right. -/

def subNlWsGo (afterNl : Bool) : List Char → List Char
  | [] => []
  | c :: rest =>
    if afterNl && isPyWs c then subNlWsGo true rest
    else c :: subNlWsGo (c = '\n') rest

def subNlWs (l : List Char) : List Char := subNlWsGo false l

/-! ## `re.sub(r"[ \t]+", " ", text)` -/

def subSpTabGo (inRun : Bool) : List Char → List Char
  | [] => []
  | c :: rest =>
    if isSpTab c then
      if inRun then subSpTabGo true rest else ' ' :: subSpTabGo true rest
    else c :: subSpTabGo false rest

def subSpTab (l : List Char) : List Char := subSpTabGo false l

/-! ## `str.strip()` -/

def dropTrailWs : List Char → List Char
  | [] => []
  | c :: rest =>
    match dropTrailWs rest with
    | [] => if isPyWs c then [] else [c]
    | r => c :: r

def pyStripL (l : List Char) : List Char := dropTrailWs (l.dropWhile isPyWs)

def pyStrip (s : String) : String := ⟨pyStripL s.data⟩

/-! ## `_strip_html` -/

def stripHtmlL (l : List Char) : List Char :=
  pyStripL (subSpTab (subNlWs (subWsNl (subAmp (subNbsp (subTag (subP (subBr l))))))))

/-- `_strip_html(html)`: the `re.sub` chain of `glassdoor.py` lines 15-27,
with the `if not html: return ""` guard. -/
def _strip_html (s : String) : String :=
  if s = "" then "" else ⟨stripHtmlL s.data⟩


/-! ## JSON values

`json.loads` output: objects are association lists (one value per key),
numeric literals are modelled as integers. -/

inductive Json where
  | null
  | bool (b : Bool)
  | num (n : Int)
  | str (s : String)
  | arr (xs : List Json)
  | obj (kvs : List (String × Json))

/-- Python truthiness of a JSON value (`if v:`). -/
def truthy : Json → Bool
  | .null => false
  | .bool b => b
  | .num n => n != 0
  | .str s => s ≠ ""
  | .arr xs => !xs.isEmpty
  | .obj kvs => !kvs.isEmpty

def lookupKey (k : String) : List (String × Json) → Option Json
  | [] => none
  | (k', v) :: rest => if k' = k then some v else lookupKey k rest

/-- `d.get(k)` on a parsed-JSON dict; `none` on non-dicts (the code only
calls `.get` after an `isinstance(..., dict)` check). -/
def Json.get? : Json → String → Option Json
  | .obj kvs, k => lookupKey k kvs
  | _, _ => none

/-- `d.get(k)` with Python's `None` collapsed into JSON null: both are
falsy and compare equal to nothing the code tests against. -/
def jget (v : Json) (k : String) : Json := (v.get? k).getD .null

mutual
/-- Python `repr` of a parsed-JSON value (string escaping inside quoted
reprs is not reproduced; no claim depends on it). -/
def pyRepr : Json → String
  | .null => "None"
  | .bool b => if b then "True" else "False"
  | .num n => toString n
  | .str s => "\x27" ++ s ++ "\x27"
  | .arr xs => "[" ++ pyReprList xs ++ "]"
  | .obj kvs => "\x7b" ++ pyReprPairs kvs ++ "\x7d"

def pyReprList : List Json → String
  | [] => ""
  | [x] => pyRepr x
  | x :: rest => pyRepr x ++ ", " ++ pyReprList rest

def pyReprPairs : List (String × Json) → String
  | [] => ""
  | [(k, v)] => "\x27" ++ k ++ "\x27: " ++ pyRepr v
  | (k, v) :: rest => "\x27" ++ k ++ "\x27: " ++ pyRepr v ++ ", " ++ pyReprPairs rest
end

/-- Python `str(v)` as used by the f-string `f"{city}, {region}"`. -/
def pyStr : Json → String
  | .str s => s
  | v => pyRepr v

/-! ## `_parse_json_ld` -/

/-- The optional-field mapping built by `_parse_json_ld` (its `result`
dict): a field is `none` exactly when its key is absent. -/
structure Posting where
  title : Option Json := none
  company : Option Json := none
  location : Option Json := none
  description : Option String := none

/-- JSON-LD candidate normalization (`glassdoor.py` lines 49-56): a list
is used directly, a dict contributes its `@graph` list when that is a
list and otherwise itself, and any other top-level value yields no
candidates. -/
def candidatesOf : Json → List Json
  | .arr xs => xs
  | .obj kvs =>
    match lookupKey "@graph" kvs with
    | some (.arr g) => g
    | _ => [.obj kvs]
  | _ => []

def hasJobStr : List Json → Bool
  | [] => false
  | .str s :: rest => s = "JobPosting" || hasJobStr rest
  | _ :: rest => hasJobStr rest

/-- Lines 63-67: `t = obj.get("@type")`; a list type marker matches when
it contains the string `"JobPosting"`, otherwise `t == "JobPosting"`. -/
def isJobPosting (c : Json) : Bool :=
  match c.get? "@type" with
  | some (.arr ts) => hasJobStr ts
  | some (.str s) => s = "JobPosting"
  | _ => false

/-- Lines 72-75: `title = obj.get("title") or obj.get("name")`, stored
only when truthy. -/
def titlePart (c : Json) : Option Json :=
  let t := if truthy (jget c "title") then jget c "title" else jget c "name"
  if truthy t then some t else none

/-- Lines 77-82: `org = obj.get("hiringOrganization") or {}`; the name is
read only when `org` is a dict and stored only when truthy. -/
def companyPart (c : Json) : Option Json :=
  let org := if truthy (jget c "hiringOrganization") then jget c "hiringOrganization"
             else Json.obj []
  match org with
  | .obj kvs =>
    let company := jget (.obj kvs) "name"
    if truthy company then some company else none
  | _ => none

/-- Lines 94-106: the `for l in locs` loop with its two `break`s. -/
def locLoop : List Json → Option Json
  | [] => none
  | l :: rest =>
    match l with
    | .obj kvs =>
      match jget (.obj kvs) "address" with
      | .obj akvs =>
        let city := jget (.obj akvs) "addressLocality"
        let region := jget (.obj akvs) "addressRegion"
        if truthy city && truthy region then
          some (.str (pyStr city ++ ", " ++ pyStr region))
        else if truthy city then some city
        else locLoop rest
      | _ => locLoop rest
    | _ => locLoop rest

/-- Lines 84-108: `jobLocation` may be a dict or a list of dicts. -/
def locationPart (c : Json) : Option Json :=
  let locs : List Json :=
    match jget c "jobLocation" with
    | .arr xs => xs
    | .obj kvs => [.obj kvs]
    | _ => []
  locLoop locs

/-- Lines 110-113: a truthy description goes through `_strip_html`; a
truthy non-string makes `re.sub` raise `TypeError` (modelled as
`.error ()`), which nothing in the program catches. -/
def descriptionPart (c : Json) : Except Unit (Option String) :=
  let desc := jget c "description"
  if truthy desc then
    match desc with
    | .str s => .ok (some (_strip_html s))
    | _ => .error ()
  else .ok none

/-- Lines 58-115: the body run on the first matching JobPosting
candidate, building the `result` dict that is then returned. -/
def extractCandidate (c : Json) : Except Unit Posting :=
  match descriptionPart c with
  | .error e => .error e
  | .ok d =>
    .ok { title := titlePart c, company := companyPart c,
          location := locationPart c, description := d }

/-- Inner `for obj in candidates` loop: the first dict candidate whose
type marker matches is extracted and returned; `none` means the loop
fell through to the next script block. -/
def scanCands : List Json → Option (Except Unit Posting)
  | [] => none
  | c :: cs =>
    match c with
    | .obj kvs =>
      if isJobPosting (.obj kvs) then some (extractCandidate (.obj kvs))
      else scanCands cs
    | _ => scanCands cs

/-- A `script[type='application/ld+json']` block: `none` when its text is
empty or fails `json.loads` (both are skipped), `some v` otherwise. -/
abbrev Block := Option Json

/-- `_parse_json_ld` over the page's script blocks (lines 30-117). -/
def parseJsonLd : List Block → Except Unit Posting
  | [] => .ok {}
  | b :: rest =>
    match b with
    | none => parseJsonLd rest
    | some d =>
      match scanCands (candidatesOf d) with
      | some r => r
      | none => parseJsonLd rest

/-! ## `get_jobs`: URL harvesting (lines 149-164) -/

def strContainsL (pat : List Char) : List Char → Bool
  | [] => pat.isEmpty
  | c :: rest => pat.isPrefixOf (c :: rest) || strContainsL pat rest

/-- Python `pat in s` substring test. -/
def strContains (s pat : String) : Bool := strContainsL pat.data s.data

/-- Lines 150-154: keep each `href` that is present, truthy and contains
`"/job-listing/"`. -/
def harvestUrls : List (Option String) → List String
  | [] => []
  | none :: rest => harvestUrls rest
  | some h :: rest =>
    if h ≠ "" && strContains h "/job-listing/" then h :: harvestUrls rest
    else harvestUrls rest

/-- Lines 156-162: de-duplicate keeping first occurrences (`seen` set). -/
def dedupGo (seen : List String) : List String → List String
  | [] => []
  | u :: rest =>
    if u ∈ seen then dedupGo seen rest
    else u :: dedupGo (u :: seen) rest

def dedupKeepFirst (l : List String) : List String := dedupGo [] l

/-- Lines 149-164: the ordered, de-duplicated, capped ListingURL set. -/
def jobUrlsUnique (hrefs : List (Option String)) (numJobs : Nat) : List String :=
  (dedupKeepFirst (harvestUrls hrefs)).take numJobs

/-! ## `get_jobs`: per-URL record construction (lines 175-242) -/

/-- A rendered job page as the scraper observes it.  `loaded` is whether
the `h1`-presence wait succeeds; each `dom*` field is the `.text` of the
corresponding fallback `find_element` query, `none` when the query
raises. -/
structure Page where
  loaded : Bool
  blocks : List Block
  domTitle : Option String
  domCompany : Option String
  domLocation : Option String
  domDescription : Option String

/-- One output row (lines 237-242).  JSON-LD values are used verbatim,
so a field holds whatever JSON value the merge produced; DOM fallback
text and the sentinel are strings. -/
structure Record where
  title : Json
  company : Json
  location : Json
  description : Json

/-- The per-field merge (lines 192-233): a truthy JSON-LD value wins;
otherwise the DOM lookup's stripped text; otherwise the sentinel. -/
def resolveField (ldv : Option Json) (dom : Option String) : Json :=
  if truthy (ldv.getD .null) then ldv.getD .null
  else
    match dom with
    | some t => .str (pyStrip t)
    | none => .str "-1"

/-- Lines 175-242 for a single URL: `ok none` when the `h1` wait times
out (URL skipped), `error` when `_parse_json_ld` crashes. -/
def buildRecord (p : Page) : Except Unit (Option Record) :=
  if !p.loaded then .ok none
  else
    match parseJsonLd p.blocks with
    | .error e => .error e
    | .ok ld =>
      .ok (some
        { title := resolveField ld.title p.domTitle
          company := resolveField ld.company p.domCompany
          location := resolveField ld.location p.domLocation
          description := resolveField (ld.description.map .str) p.domDescription })

/-- The `for url in job_urls_unique` loop: rows accumulate in order,
skipped URLs contribute nothing. -/
def runJobs (pageOf : String → Page) : List String → Except Unit (List Record)
  | [] => .ok []
  | u :: rest =>
    match buildRecord (pageOf u) with
    | .error e => .error e
    | .ok none => runJobs pageOf rest
    | .ok (some r) =>
      match runJobs pageOf rest with
      | .error e => .error e
      | .ok rs => .ok (r :: rs)


/-! ## Spec-side definitions

These follow the wording of the specification (section 4.1) rather than
the code, for the refinement claims: first-match selection across blocks
and the documented per-field extraction rules. -/

/-- Spec: the first candidate across all blocks in document order whose
declared type is (or includes, for a list) the job-posting marker. -/
def specFirstJob (blocks : List Block) : Option Json :=
  ((blocks.filterMap id).flatMap candidatesOf).find? isJobPosting

/-- Spec: primary title field, or a secondary name field as alternate. -/
def specTitle (c : Json) : Option Json :=
  if truthy (jget c "title") then some (jget c "title")
  else if truthy (jget c "name") then some (jget c "name")
  else none

/-- Spec: name field nested inside a hiring-organization object. -/
def specCompany (c : Json) : Option Json :=
  match jget c "hiringOrganization" with
  | .obj kvs =>
    if truthy (jget (.obj kvs) "name") then some (jget (.obj kvs) "name") else none
  | _ => none

/-- Spec: a job-location value may be a single object or a list. -/
def specLocObjects : Json → List Json
  | .arr xs => xs
  | .obj kvs => [.obj kvs]
  | _ => []

/-- Spec: the text a single location object yields — from its nested
address block, `"<locality>, <region>"` when it has both, the locality
alone when it has only that, nothing otherwise. -/
def specLocText (l : Json) : Option Json :=
  match jget l "address" with
  | .obj akvs =>
    let city := jget (.obj akvs) "addressLocality"
    let region := jget (.obj akvs) "addressRegion"
    if truthy city && truthy region then
      some (.str (pyStr city ++ ", " ++ pyStr region))
    else if truthy city then some city
    else none
  | _ => none

/-- Spec: iterate the location objects in order and stop at the first
one yielding any text. -/
def specLocation (c : Json) : Option Json :=
  ((specLocObjects (jget c "jobLocation")).filterMap specLocText).head?

/-- Spec: a raw markup description string, normalized to text. -/
def specDescription (c : Json) : Option String :=
  match jget c "description" with
  | .str s => if s = "" then none else some (_strip_html s)
  | _ => none

/-- Spec: the full documented extraction rule for one candidate; absent
fields stay absent. -/
def specExtract (c : Json) : Posting :=
  { title := specTitle c, company := specCompany c,
    location := specLocation c, description := specDescription c }

/-! ## Concrete inputs for witnesses, and invariant predicates -/

/-- The three location examples of the specification, as JSON-LD
candidates. -/
def candAustinTX : Json :=
  .obj [("@type", .str "JobPosting"),
    ("jobLocation", .arr [.obj [("address",
      .obj [("addressLocality", .str "Austin"), ("addressRegion", .str "TX")])]])]

def candAustin : Json :=
  .obj [("@type", .str "JobPosting"),
    ("jobLocation", .arr [.obj [("address",
      .obj [("addressLocality", .str "Austin")])]])]

def candEmptyAddr : Json :=
  .obj [("@type", .str "JobPosting"),
    ("jobLocation", .arr [.obj [("address", .obj [])]])]

/-- A JobPosting block whose only payload is a title. -/
def jobTitleBlock : Json :=
  .obj [("@type", .str "JobPosting"), ("title", .str "T")]

/-- A JobPosting block whose truthy raw description normalizes to the
empty string. -/
def emptyMarkupBlock : Json :=
  .obj [("@type", .str "JobPosting"), ("description", .str "<p></p>")]

/-- A loaded page with no JSON-LD whose `h1` has text `"T"` and whose
other fallback queries raise. -/
def pageT : Page :=
  { loaded := true, blocks := [], domTitle := some "T",
    domCompany := none, domLocation := none, domDescription := none }

/-- The record the scraper builds for `pageT`. -/
def recT : Record :=
  { title := .str "T", company := .str "-1", location := .str "-1",
    description := .str "-1" }

/-- Five distinct harvested listing links. -/
def hrefs5 : List (Option String) :=
  [some "/job-listing/a", some "/job-listing/b", some "/job-listing/c",
   some "/job-listing/d", some "/job-listing/e"]

/-- A loaded page with no JSON-LD whose `h1` element exists but has
empty text: the title fallback succeeds and returns `""`. -/
def pageEmptyH1 : Page :=
  { loaded := true, blocks := [], domTitle := some "",
    domCompany := none, domLocation := none, domDescription := none }

def noTagB : List Char → Bool
  | [] => true
  | c :: rest =>
    (if c = '<' then (rest.head? = some '>' || !rest.contains '>') else true) &&
      noTagB rest

def noPair (p q : Char → Bool) : List Char → Bool
  | [] => true
  | [_] => true
  | a :: b :: rest => (!(p a && q b)) && noPair p q (b :: rest)

def isNl (c : Char) : Bool := c = '\n'

def firstNonWs : List Char → Bool
  | [] => true
  | c :: _ => !isPyWs c

def lastNonWs : List Char → Bool
  | [] => true
  | [c] => !isPyWs c
  | _ :: rest => lastNonWs rest

/-! ## Helper lemmas: the extractor -/

theorem isJobPosting_non_obj (c : Json) (h : ∀ kvs, c ≠ .obj kvs) :
    isJobPosting c = false := by
  cases c <;> first
    | rfl
    | exact absurd rfl (h _)

theorem scanCands_eq_find (cs : List Json) :
    scanCands cs = (cs.find? isJobPosting).map extractCandidate := by
  induction cs with
  | nil => rfl
  | cons c cs ih =>
    cases c with
    | obj kvs =>
      by_cases h : isJobPosting (.obj kvs)
      · simp [scanCands, List.find?, h]
      · simp [scanCands, List.find?, h, ih]
    | null => simpa [scanCands, List.find?] using ih
    | bool b => simpa [scanCands, List.find?, isJobPosting] using ih
    | num n => simpa [scanCands, List.find?, isJobPosting] using ih
    | str s => simpa [scanCands, List.find?, isJobPosting] using ih
    | arr xs => simpa [scanCands, List.find?, isJobPosting] using ih

/-- `_parse_json_ld` returns exactly the extraction of the first
matching candidate in document order (and the empty mapping when no
candidate matches). -/
theorem parse_eq_first (blocks : List Block) :
    parseJsonLd blocks =
      (match specFirstJob blocks with
       | some c => extractCandidate c
       | none => .ok {}) := by
  induction blocks with
  | nil => rfl
  | cons b rest ih =>
    cases b with
    | none =>
      simpa [parseJsonLd, specFirstJob] using ih
    | some d =>
      simp only [parseJsonLd, specFirstJob, List.filterMap_cons, Option.some.injEq] at *
      rw [scanCands_eq_find]
      cases hf : (candidatesOf d).find? isJobPosting with
      | some c =>
        simp [List.flatMap_cons, List.find?_append, hf]
      | none =>
        simp only [Option.map_none']
        simpa [List.flatMap_cons, List.find?_append, hf] using ih

theorem titlePart_eq_spec (c : Json) : titlePart c = specTitle c := by
  unfold titlePart specTitle
  by_cases h1 : truthy (jget c "title") <;> simp [h1]

theorem companyPart_eq_spec (c : Json) : companyPart c = specCompany c := by
  unfold companyPart specCompany
  cases horg : jget c "hiringOrganization" with
  | obj kvs =>
    by_cases h : truthy (Json.obj kvs)
    · simp [horg, h]
    · have : kvs = [] := by
        cases kvs with
        | nil => rfl
        | cons a l => simp [truthy] at h
      subst this
      simp [horg, truthy, jget, Json.get?, lookupKey]
  | null => simp [horg, truthy, jget, Json.get?, lookupKey]
  | bool b => cases b <;> simp [horg, truthy, jget, Json.get?, lookupKey]
  | num n =>
    by_cases h : n = 0 <;> simp [horg, truthy, h, jget, Json.get?, lookupKey]
  | str s =>
    by_cases h : s = "" <;> simp [horg, truthy, h, jget, Json.get?, lookupKey]
  | arr xs => cases xs <;> simp [horg, truthy, jget, Json.get?, lookupKey]

theorem locLoop_eq_spec (ls : List Json) :
    locLoop ls = (ls.filterMap specLocText).head? := by
  induction ls with
  | nil => rfl
  | cons l rest ih =>
    cases l with
    | obj kvs =>
      cases haddr : jget (.obj kvs) "address" with
      | obj akvs =>
        by_cases hcr : truthy (jget (.obj akvs) "addressLocality") &&
            truthy (jget (.obj akvs) "addressRegion")
        · simp [locLoop, haddr, hcr, List.filterMap_cons, specLocText]
        · by_cases hc : truthy (jget (.obj akvs) "addressLocality")
          · simp_all [locLoop, haddr, List.filterMap_cons, specLocText]
          · simp_all [locLoop, haddr, List.filterMap_cons, specLocText]
      | null => simp_all [locLoop, haddr, List.filterMap_cons, specLocText]
      | bool b => simp_all [locLoop, haddr, List.filterMap_cons, specLocText]
      | num n => simp_all [locLoop, haddr, List.filterMap_cons, specLocText]
      | str s => simp_all [locLoop, haddr, List.filterMap_cons, specLocText]
      | arr xs => simp_all [locLoop, haddr, List.filterMap_cons, specLocText]
    | null => simp_all [locLoop, List.filterMap_cons, specLocText, jget, Json.get?]
    | bool b => simp_all [locLoop, List.filterMap_cons, specLocText, jget, Json.get?]
    | num n => simp_all [locLoop, List.filterMap_cons, specLocText, jget, Json.get?]
    | str s => simp_all [locLoop, List.filterMap_cons, specLocText, jget, Json.get?]
    | arr xs => simp_all [locLoop, List.filterMap_cons, specLocText, jget, Json.get?]

theorem locationPart_eq_spec (c : Json) : locationPart c = specLocation c := by
  unfold locationPart specLocation
  rw [locLoop_eq_spec]
  cases h : jget c "jobLocation" <;> simp [h, specLocObjects]

theorem descriptionPart_ok_spec (c : Json) (d : Option String)
    (h : descriptionPart c = .ok d) : d = specDescription c := by
  unfold descriptionPart at h
  unfold specDescription
  cases hd : jget c "description" with
  | str s =>
    by_cases hs : s = ""
    · subst hs; simp [hd, truthy] at h; simp [← h]
    · have ht : truthy (Json.str s) = true := by simp [truthy, hs]
      simp [hd, ht] at h
      simp [hs, ← h]
  | null => simp [hd, truthy] at h; simp [← h]
  | bool b =>
    by_cases hb : truthy (Json.bool b)
    · simp [hd, hb] at h
    · simp [hd, hb] at h; simp [← h]
  | num n =>
    by_cases hb : truthy (Json.num n)
    · simp [hd, hb] at h
    · simp [hd, hb] at h; simp [← h]
  | arr xs =>
    by_cases hb : truthy (Json.arr xs)
    · simp [hd, hb] at h
    · simp [hd, hb] at h; simp [← h]
  | obj kvs =>
    by_cases hb : truthy (Json.obj kvs)
    · simp [hd, hb] at h
    · simp [hd, hb] at h; simp [← h]

theorem extractCandidate_ok_spec (c : Json) (r : Posting)
    (h : extractCandidate c = .ok r) : r = specExtract c := by
  unfold extractCandidate at h
  cases hd : descriptionPart c with
  | error e => rw [hd] at h; exact absurd h (by simp)
  | ok d =>
    rw [hd] at h
    simp only [Except.ok.injEq] at h
    subst h
    unfold specExtract
    rw [titlePart_eq_spec, companyPart_eq_spec, locationPart_eq_spec,
      descriptionPart_ok_spec c d hd]

/-! ## Helper lemmas: truthiness of extracted values -/

theorem truthy_ne_empty_str {v : Json} (h : truthy v) : v ≠ .str "" := by
  intro he
  subst he
  simp [truthy] at h

theorem str_append_comma_ne (a b : String) : a ++ ", " ++ b ≠ "" := by
  intro h
  have hl := congrArg String.length h
  simp only [String.length_append] at hl
  have h2 : (", " : String).length = 2 := by decide
  have h0 : ("" : String).length = 0 := by decide
  omega

theorem titlePart_truthy (c : Json) (v : Json) (h : titlePart c = some v) :
    truthy v := by
  unfold titlePart at h
  by_cases ht : truthy (if truthy (jget c "title") then jget c "title" else jget c "name")
  · rw [if_pos ht] at h
    cases h
    exact ht
  · rw [if_neg ht] at h
    cases h

theorem companyPart_truthy (c : Json) (v : Json) (h : companyPart c = some v) :
    truthy v := by
  unfold companyPart at h
  cases horg : (if truthy (jget c "hiringOrganization") then jget c "hiringOrganization"
      else Json.obj []) with
  | obj kvs =>
    rw [horg] at h
    dsimp only at h
    by_cases hn : truthy (jget (.obj kvs) "name")
    · rw [if_pos hn] at h
      cases h
      exact hn
    · rw [if_neg hn] at h
      cases h
  | null => rw [horg] at h; dsimp only at h; cases h
  | bool b => rw [horg] at h; dsimp only at h; cases h
  | num n => rw [horg] at h; dsimp only at h; cases h
  | str s => rw [horg] at h; dsimp only at h; cases h
  | arr xs => rw [horg] at h; dsimp only at h; cases h

theorem locLoop_truthy (ls : List Json) (v : Json) (h : locLoop ls = some v) :
    truthy v := by
  induction ls with
  | nil => cases h
  | cons l rest ih =>
    cases l with
    | obj kvs =>
      rw [locLoop] at h
      cases haddr : jget (.obj kvs) "address" with
      | obj akvs =>
        rw [haddr] at h
        dsimp only at h
        by_cases hcr : truthy (jget (.obj akvs) "addressLocality") &&
            truthy (jget (.obj akvs) "addressRegion")
        · rw [if_pos hcr] at h
          cases h
          simp [truthy, str_append_comma_ne]
        · rw [if_neg hcr] at h
          by_cases hc : truthy (jget (.obj akvs) "addressLocality")
          · rw [if_pos hc] at h
            cases h
            exact hc
          · rw [if_neg hc] at h
            exact ih h
      | null => rw [haddr] at h; dsimp only at h; exact ih h
      | bool b => rw [haddr] at h; dsimp only at h; exact ih h
      | num n => rw [haddr] at h; dsimp only at h; exact ih h
      | str s => rw [haddr] at h; dsimp only at h; exact ih h
      | arr xs => rw [haddr] at h; dsimp only at h; exact ih h
    | null => exact ih ((show locLoop (Json.null :: rest) = locLoop rest from rfl) ▸ h)
    | bool b => exact ih ((show locLoop (Json.bool b :: rest) = locLoop rest from rfl) ▸ h)
    | num n => exact ih ((show locLoop (Json.num n :: rest) = locLoop rest from rfl) ▸ h)
    | str s => exact ih ((show locLoop (Json.str s :: rest) = locLoop rest from rfl) ▸ h)
    | arr xs => exact ih ((show locLoop (Json.arr xs :: rest) = locLoop rest from rfl) ▸ h)

theorem locationPart_truthy (c : Json) (v : Json) (h : locationPart c = some v) :
    truthy v :=
  locLoop_truthy _ v h

/-- `parseJsonLd` only returns the empty mapping or a first-candidate
extraction. -/
theorem parse_ok_cases (blocks : List Block) (r : Posting)
    (h : parseJsonLd blocks = .ok r) :
    r = {} ∨ ∃ c, extractCandidate c = .ok r := by
  rw [parse_eq_first] at h
  cases hf : specFirstJob blocks with
  | none =>
    rw [hf] at h
    simp only [Except.ok.injEq] at h
    exact Or.inl h.symm
  | some c =>
    rw [hf] at h
    exact Or.inr ⟨c, h⟩

theorem extract_ok_title (c : Json) (r : Posting) (h : extractCandidate c = .ok r) :
    r.title = titlePart c := by
  unfold extractCandidate at h
  cases hd : descriptionPart c with
  | error e => rw [hd] at h; cases h
  | ok d => rw [hd] at h; cases h; rfl

theorem extract_ok_company (c : Json) (r : Posting) (h : extractCandidate c = .ok r) :
    r.company = companyPart c := by
  unfold extractCandidate at h
  cases hd : descriptionPart c with
  | error e => rw [hd] at h; cases h
  | ok d => rw [hd] at h; cases h; rfl

theorem extract_ok_location (c : Json) (r : Posting) (h : extractCandidate c = .ok r) :
    r.location = locationPart c := by
  unfold extractCandidate at h
  cases hd : descriptionPart c with
  | error e => rw [hd] at h; cases h
  | ok d => rw [hd] at h; cases h; rfl

/-! ## Helper lemmas: the merge and the URL set -/

theorem resolveField_truthy (ldv : Option Json) (dom : Option String)
    (hd : ∀ t, dom = some t → pyStrip t ≠ "") :
    truthy (resolveField ldv dom) := by
  unfold resolveField
  by_cases h : truthy (ldv.getD .null)
  · rw [if_pos h]
    exact h
  · rw [if_neg h]
    cases dom with
    | none => decide
    | some t => simpa [truthy] using hd t rfl

theorem buildRecord_fields (p : Page) (ld : Posting) (r : Record)
    (hld : parseJsonLd p.blocks = .ok ld)
    (h : buildRecord p = .ok (some r)) :
    r.title = resolveField ld.title p.domTitle ∧
    r.company = resolveField ld.company p.domCompany ∧
    r.location = resolveField ld.location p.domLocation ∧
    r.description = resolveField (ld.description.map .str) p.domDescription := by
  unfold buildRecord at h
  cases hl : p.loaded with
  | false => rw [hl] at h; cases h
  | true =>
    rw [hl] at h
    rw [hld] at h
    simp only [Bool.not_true, Bool.false_eq_true, if_false, Except.ok.injEq,
      Option.some.injEq] at h
    subst h
    exact ⟨rfl, rfl, rfl, rfl⟩

theorem dedupGo_sublist (l : List String) : ∀ seen, (dedupGo seen l).Sublist l := by
  induction l with
  | nil => intro seen; simp [dedupGo]
  | cons u rest ih =>
    intro seen
    rw [dedupGo]
    by_cases h : u ∈ seen
    · rw [if_pos h]
      exact (ih seen).cons u
    · rw [if_neg h]
      exact (ih (u :: seen)).cons₂ u

theorem dedupGo_mem (l : List String) :
    ∀ seen x, x ∈ dedupGo seen l ↔ x ∈ l ∧ x ∉ seen := by
  induction l with
  | nil => intro seen x; simp [dedupGo]
  | cons u rest ih =>
    intro seen x
    rw [dedupGo]
    by_cases h : u ∈ seen
    · rw [if_pos h, ih]
      constructor
      · rintro ⟨hx, hs⟩
        exact ⟨List.mem_cons_of_mem u hx, hs⟩
      · rintro ⟨hx, hs⟩
        rcases List.mem_cons.mp hx with rfl | hx
        · exact absurd h hs
        · exact ⟨hx, hs⟩
    · rw [if_neg h]
      constructor
      · intro hx
        rcases List.mem_cons.mp hx with rfl | hx
        · exact ⟨List.mem_cons_self _ _, h⟩
        · rcases (ih _ _).mp hx with ⟨h1, h2⟩
          refine ⟨List.mem_cons_of_mem u h1, fun hs => h2 (List.mem_cons_of_mem u hs)⟩
      · rintro ⟨hx, hs⟩
        rcases List.mem_cons.mp hx with rfl | hx
        · exact List.mem_cons_self _ _
        · by_cases hxu : x = u
          · subst hxu; exact List.mem_cons_self _ _
          · refine List.mem_cons_of_mem u ((ih _ _).mpr ⟨hx, ?_⟩)
            intro hc
            rcases List.mem_cons.mp hc with h' | h'
            · exact hxu h'
            · exact hs h'

theorem dedupGo_nodup (l : List String) : ∀ seen, (dedupGo seen l).Nodup := by
  induction l with
  | nil => intro seen; simp [dedupGo]
  | cons u rest ih =>
    intro seen
    rw [dedupGo]
    by_cases h : u ∈ seen
    · rw [if_pos h]
      exact ih seen
    · rw [if_neg h]
      refine List.nodup_cons.mpr ⟨?_, ih (u :: seen)⟩
      intro hc
      exact ((dedupGo_mem rest _ u).mp hc).2 (List.mem_cons_self _ _)

theorem runJobs_length (pageOf : String → Page) (urls : List String) :
    ∀ rows, runJobs pageOf urls = .ok rows → rows.length ≤ urls.length := by
  induction urls with
  | nil =>
    intro rows h
    cases h
    simp
  | cons u rest ih =>
    intro rows h
    rw [runJobs] at h
    cases hb : buildRecord (pageOf u) with
    | error e => rw [hb] at h; cases h
    | ok o =>
      rw [hb] at h
      cases o with
      | none =>
        exact Nat.le_succ_of_le (ih rows h)
      | some r =>
        cases hr : runJobs pageOf rest with
        | error e => rw [hr] at h; cases h
        | ok rs =>
          rw [hr] at h
          cases h
          simpa using ih rs hr

/-! ## Claim theorems -/

/-- **C2.** When the structured-data blocks contain multiple candidates
whose type marker is (or includes) the job-posting type, `_parse_json_ld`
returns the extraction of exactly the first matching candidate in
document order (blocks in order, candidates within a block in order);
when none matches it returns the empty mapping.  Later candidates and
blocks contribute nothing. -/
theorem c2_first_match_wins (blocks : List Block) :
    parseJsonLd blocks =
      (match specFirstJob blocks with
       | some c => extractCandidate c
       | none => .ok {}) :=
  parse_eq_first blocks

/-- **C6.** Fields absent from the first matching candidate are absent
from `_parse_json_ld`'s result: the result equals the documented
spec-side extraction rule, which never fills a missing field with a
sentinel or any other placeholder. -/
theorem c6_fields_absent_not_sentinel (blocks : List Block) (r : Posting)
    (h : parseJsonLd blocks = .ok r) :
    r = (match specFirstJob blocks with
         | some c => specExtract c
         | none => {}) := by
  rw [parse_eq_first] at h
  cases hf : specFirstJob blocks with
  | none =>
    rw [hf] at h
    dsimp only at h ⊢
    simp only [Except.ok.injEq] at h
    exact h.symm
  | some c =>
    rw [hf] at h
    dsimp only at h ⊢
    exact extractCandidate_ok_spec c r h

/-- **C7.** `_strip_html` maps the empty input to the empty string and
`"<p>Hi&nbsp;there</p>"` to exactly `"Hi there"`. -/
theorem c7_strip_html_base_cases :
    _strip_html "" = "" ∧ _strip_html "<p>Hi&nbsp;there</p>" = "Hi there" :=
  ⟨by decide, by decide⟩

/-- **C8.** A block whose text fails to parse (or is empty) is skipped
without any error and never prevents a later well-formed block from
being used: deleting it from the block list leaves the result
unchanged. -/
theorem c8_malformed_block_skipped (xs ys : List Block) :
    parseJsonLd (xs ++ none :: ys) = parseJsonLd (xs ++ ys) := by
  induction xs with
  | nil => rfl
  | cons b rest ih =>
    cases b with
    | none => simpa [parseJsonLd] using ih
    | some d =>
      simp only [List.cons_append, parseJsonLd]
      cases scanCands (candidatesOf d) <;> simp [ih]

/-- **C4.** The location rule of the extractor: the job-location value
may be a single object or a list; location objects are tried in order
via their nested address block — locality and region give
`"<locality>, <region>"`, a locality alone gives the locality — stopping
at the first object yielding text; when none yields text the result has
no location entry.  Stated as agreement between the code's loop and the
spec-side rule, and transported to the extractor's result. -/
theorem c4_location_rule :
    (∀ c : Json, locationPart c = specLocation c) ∧
    (∀ (c : Json) (r : Posting), extractCandidate c = .ok r →
      r.location = specLocation c) := by
  refine ⟨locationPart_eq_spec, fun c r h => ?_⟩
  rw [extractCandidate_ok_spec c r h]
  rfl

/-- Witness for C4 at the specification's three concrete examples. -/
theorem c4_witness :
    ((⟨none, none, some (.str "Austin, TX"), none⟩ : Posting).location =
      specLocation candAustinTX) ∧
    ((⟨none, none, some (.str "Austin"), none⟩ : Posting).location =
      specLocation candAustin) ∧
    ((⟨none, none, none, none⟩ : Posting).location = specLocation candEmptyAddr) ∧
    specLocation candAustinTX = some (.str "Austin, TX") ∧
    specLocation candAustin = some (.str "Austin") ∧
    specLocation candEmptyAddr = none :=
  ⟨c4_location_rule.2 candAustinTX _ rfl,
   c4_location_rule.2 candAustin _ rfl,
   c4_location_rule.2 candEmptyAddr _ rfl,
   rfl, rfl, rfl⟩

/-- Witness for C6: a candidate carrying only a title yields a mapping
whose other three fields are absent, matching the spec-side rule. -/
theorem c6_witness :
    (⟨some (.str "T"), none, none, none⟩ : Posting) =
      (match specFirstJob [some jobTitleBlock] with
       | some c => specExtract c
       | none => {}) :=
  c6_fields_absent_not_sentinel [some jobTitleBlock] _ rfl

/-- **C10.** In the extractor's result, present title, company and
location values are truthy (hence never the empty string); the
description, by contrast, can be stored as the empty string — a truthy
raw description that is pure markup normalizes to `""` — and the merge
then treats such an empty description exactly like an absent one. -/
theorem c10_truthy_except_description :
    (∀ (blocks : List Block) (r : Posting) (v : Json),
      parseJsonLd blocks = .ok r → r.title = some v → truthy v) ∧
    (∀ (blocks : List Block) (r : Posting) (v : Json),
      parseJsonLd blocks = .ok r → r.company = some v → truthy v) ∧
    (∀ (blocks : List Block) (r : Posting) (v : Json),
      parseJsonLd blocks = .ok r → r.location = some v → truthy v) ∧
    parseJsonLd [some emptyMarkupBlock] =
      .ok ⟨none, none, none, some ""⟩ ∧
    (∀ dom : Option String,
      resolveField ((some "").map .str) dom = resolveField none dom) := by
  refine ⟨?_, ?_, ?_, rfl, fun dom => rfl⟩
  · intro blocks r v h ht
    rcases parse_ok_cases blocks r h with rfl | ⟨c, hc⟩
    · cases ht
    · rw [extract_ok_title c r hc] at ht
      exact titlePart_truthy c v ht
  · intro blocks r v h ht
    rcases parse_ok_cases blocks r h with rfl | ⟨c, hc⟩
    · cases ht
    · rw [extract_ok_company c r hc] at ht
      exact companyPart_truthy c v ht
  · intro blocks r v h ht
    rcases parse_ok_cases blocks r h with rfl | ⟨c, hc⟩
    · cases ht
    · rw [extract_ok_location c r hc] at ht
      exact locationPart_truthy c v ht

/-- Witness for C10 at a concrete one-block page. -/
theorem c10_witness : truthy (Json.str "T") = true :=
  c10_truthy_except_description.1 [some jobTitleBlock]
    ⟨some (.str "T"), none, none, none⟩ (.str "T") rfl rfl

/-- **C5.** Per-field merge: a truthy extractor value is used verbatim;
otherwise the single DOM lookup decides the field, with any failure
(`none`) yielding exactly the sentinel `"-1"`; each of the four fields
of a successfully built record is exactly one `resolveField` application
on its own extractor value and its own lookup. -/
theorem c5_field_resolution (p : Page) (ld : Posting) (r : Record)
    (hld : parseJsonLd p.blocks = .ok ld)
    (h : buildRecord p = .ok (some r)) :
    (r.title = resolveField ld.title p.domTitle ∧
     r.company = resolveField ld.company p.domCompany ∧
     r.location = resolveField ld.location p.domLocation ∧
     r.description = resolveField (ld.description.map .str) p.domDescription) ∧
    (∀ (v : Json) (dom : Option String), truthy v → resolveField (some v) dom = v) ∧
    (∀ ldv : Option Json, ¬ truthy (ldv.getD .null) →
      resolveField ldv none = .str "-1") := by
  refine ⟨buildRecord_fields p ld r hld h, ?_, ?_⟩
  · intro v dom hv
    unfold resolveField
    simp only [Option.getD_some]
    rw [if_pos hv]
  · intro ldv hv
    unfold resolveField
    simp [hv]

/-- Witness for C5 at `pageT`. -/
theorem c5_witness :
    recT.title = resolveField (Posting.mk none none none none).title pageT.domTitle ∧
    recT.company = resolveField (Posting.mk none none none none).company pageT.domCompany :=
  ⟨((c5_field_resolution pageT ⟨none, none, none, none⟩ recT rfl rfl).1).1,
   ((c5_field_resolution pageT ⟨none, none, none, none⟩ recT rfl rfl).1).2.1⟩

/-- **C9.** The ListingURL sequence: de-duplication keeps first
occurrences (the result is duplicate-free and an order-preserving
subsequence of the harvested links, containing every harvested link),
truncation caps it at the requested count (reaching the count exactly
when enough unique links exist), the driver loop emits at most one row
per visited URL, and a link repeated four times contributes one entry. -/
theorem c9_dedup_and_cap :
    (∀ hrefs : List (Option String), (dedupKeepFirst (harvestUrls hrefs)).Nodup) ∧
    (∀ hrefs : List (Option String),
      (dedupKeepFirst (harvestUrls hrefs)).Sublist (harvestUrls hrefs)) ∧
    (∀ (hrefs : List (Option String)) (u : String),
      u ∈ harvestUrls hrefs ↔ u ∈ dedupKeepFirst (harvestUrls hrefs)) ∧
    (∀ (hrefs : List (Option String)) (n : Nat),
      (jobUrlsUnique hrefs n).length ≤ n) ∧
    (∀ (hrefs : List (Option String)) (n : Nat),
      n ≤ (dedupKeepFirst (harvestUrls hrefs)).length →
      (jobUrlsUnique hrefs n).length = n) ∧
    (∀ (pageOf : String → Page) (urls : List String) (rows : List Record),
      runJobs pageOf urls = .ok rows → rows.length ≤ urls.length) ∧
    (∀ u : String, dedupKeepFirst [u, u, u, u] = [u]) := by
  refine ⟨fun hrefs => dedupGo_nodup _ [],
         fun hrefs => dedupGo_sublist _ [],
         fun hrefs u => ?_,
         fun hrefs n => ?_,
         fun hrefs n h => ?_,
         fun pageOf urls rows h => runJobs_length pageOf urls rows h,
         fun u => ?_⟩
  · rw [dedupKeepFirst, dedupGo_mem]
    simp
  · rw [jobUrlsUnique, List.length_take]
    exact Nat.min_le_left _ _
  · rw [jobUrlsUnique, List.length_take]
    omega
  · simp [dedupKeepFirst, dedupGo]

/-- Witness for C9: five unique listing URLs with a requested count of
three give exactly three visited URLs, and the loop over them produces
at most three rows. -/
theorem c9_witness :
    (jobUrlsUnique hrefs5 3).length = 3 ∧
    ([recT, recT, recT] : List Record).length ≤ (jobUrlsUnique hrefs5 3).length :=
  ⟨c9_dedup_and_cap.2.2.2.2.1 hrefs5 3 (by decide),
   (c9_dedup_and_cap.2.2.2.2.1 hrefs5 3 (by decide)) ▸
     c9_dedup_and_cap.2.2.2.2.2.1 (fun _ => pageT) (jobUrlsUnique hrefs5 3)
       [recT, recT, recT] (by rfl)⟩

/-- **C1, counterexample.** A URL whose page loads (the `h1` wait
succeeds because the element is present) can still emit a record whose
title is the empty string — not a genuine value and not `"-1"` —
because the DOM fallback's `.text.strip()` is used unchecked.  This
refutes the claim that every emitted field is non-empty. -/
theorem c1_counterexample :
    buildRecord pageEmptyH1 =
      .ok (some { title := .str "", company := .str "-1",
                  location := .str "-1", description := .str "-1" }) := rfl

/-- **C1, amended.** Every field of an emitted record is truthy — a
genuine extracted value or exactly the sentinel `"-1"`, never the empty
string — *provided* every DOM fallback lookup that succeeds returns
non-empty stripped text.  (An empty successful lookup is emitted as-is,
which is what the counterexample exploits.) -/
theorem c1_fields_truthy_amended (p : Page) (r : Record)
    (h : buildRecord p = .ok (some r))
    (h1 : ∀ t, p.domTitle = some t → pyStrip t ≠ "")
    (h2 : ∀ t, p.domCompany = some t → pyStrip t ≠ "")
    (h3 : ∀ t, p.domLocation = some t → pyStrip t ≠ "")
    (h4 : ∀ t, p.domDescription = some t → pyStrip t ≠ "") :
    (truthy r.title ∧ truthy r.company ∧ truthy r.location ∧ truthy r.description) ∧
    (r.title ≠ .str "" ∧ r.company ≠ .str "" ∧ r.location ≠ .str "" ∧
     r.description ≠ .str "") := by
  unfold buildRecord at h
  cases hl : p.loaded with
  | false => rw [hl] at h; cases h
  | true =>
    rw [hl] at h
    cases hld : parseJsonLd p.blocks with
    | error e => rw [hld] at h; cases h
    | ok ld =>
      rw [hld] at h
      simp only [Bool.not_true, Bool.false_eq_true, if_false, Except.ok.injEq,
        Option.some.injEq] at h
      subst h
      have t1 := resolveField_truthy ld.title p.domTitle h1
      have t2 := resolveField_truthy ld.company p.domCompany h2
      have t3 := resolveField_truthy ld.location p.domLocation h3
      have t4 := resolveField_truthy (ld.description.map .str) p.domDescription h4
      exact ⟨⟨t1, t2, t3, t4⟩,
        truthy_ne_empty_str t1, truthy_ne_empty_str t2,
        truthy_ne_empty_str t3, truthy_ne_empty_str t4⟩

/-- Witness for the amended C1 at `pageT`, whose one successful lookup
strips to the non-empty `"T"`. -/
theorem c1_witness :
    (truthy recT.title ∧ truthy recT.company ∧ truthy recT.location ∧
      truthy recT.description) ∧
    (recT.title ≠ .str "" ∧ recT.company ≠ .str "" ∧ recT.location ≠ .str "" ∧
      recT.description ≠ .str "") :=
  c1_fields_truthy_amended pageT recT rfl
    (fun t ht => by
      rw [show pageT.domTitle = some "T" from rfl] at ht
      cases ht
      decide)
    (fun t ht => by rw [show pageT.domCompany = none from rfl] at ht; cases ht)
    (fun t ht => by rw [show pageT.domLocation = none from rfl] at ht; cases ht)
    (fun t ht => by rw [show pageT.domDescription = none from rfl] at ht; cases ht)

/-! ## Invariants of normalized text

`_strip_html`'s output can fail to be a fixed point only through the
escape rewrites: `&amp;` decoding can recreate `&amp;`/`&nbsp;`
occurrences.  Every other stage is the identity on the output, which the
following invariants capture: `noTagB` says every `<` is immediately
followed by `>` or sees no later `>` (so no tag pattern matches), and
`noPair p q` forbids an adjacent pair with `p` on the left and `q` on
the right (specializations: no whitespace directly before a newline, no
whitespace directly after a newline, no adjacent space/tab pair). -/

theorem noTagB_cons_ne {c : Char} (l : List Char) (h : c ≠ '<') :
    noTagB (c :: l) = noTagB l := by
  simp [noTagB, h]

theorem noTagB_cons_elim {c : Char} {l : List Char} (h : noTagB (c :: l)) :
    noTagB l := by
  rw [noTagB] at h
  exact (Bool.and_eq_true_iff.mp h).2

theorem noTagB_singleton (c : Char) : noTagB [c] := by
  by_cases h : c = '<' <;> simp [noTagB, h]

theorem noTagB_of_no_lt (l : List Char) (h : '<' ∉ l) : noTagB l := by
  induction l with
  | nil => rfl
  | cons c rest ih =>
    have hc : c ≠ '<' := fun he => h (he ▸ List.mem_cons_self _ _)
    rw [noTagB_cons_ne rest hc]
    exact ih fun hm => h (List.mem_cons_of_mem _ hm)

theorem noTagB_append_no_lt (a l : List Char) (ha : ∀ c ∈ a, c ≠ '<')
    (hl : noTagB l) : noTagB (a ++ l) := by
  induction a with
  | nil => simpa using hl
  | cons c rest ih =>
    rw [List.cons_append, noTagB_cons_ne _ (ha c (List.mem_cons_self _ _))]
    exact ih fun d hd => ha d (List.mem_cons_of_mem _ hd)

theorem not_mem_of_not_contains {l : List Char} {c : Char}
    (h : (!l.contains c) = true) : c ∉ l := by
  intro hm
  have hc : l.contains c = true := List.elem_eq_true_of_mem hm
  rw [hc] at h
  simp at h

theorem not_contains_of_not_mem {l : List Char} {c : Char} (h : c ∉ l) :
    (!l.contains c) = true := by
  cases hc : l.contains c with
  | true => exact absurd (List.mem_of_elem_eq_true hc) h
  | false => rfl

theorem noPair_cons_elim {p q : Char → Bool} {c : Char} {l : List Char}
    (h : noPair p q (c :: l)) : noPair p q l := by
  cases l with
  | nil => rfl
  | cons b rest =>
    rw [noPair] at h
    exact (Bool.and_eq_true_iff.mp h).2

theorem noPair_cons_pair {p q : Char → Bool} {a b : Char} {l : List Char}
    (h : noPair p q (a :: b :: l)) : !(p a && q b) := by
  rw [noPair] at h
  exact (Bool.and_eq_true_iff.mp h).1

theorem noPair_cons_of {p q : Char → Bool} {c : Char} {l : List Char}
    (h : noPair p q l) (hc : p c = false ∨ ∀ b, l.head? = some b → q b = false) :
    noPair p q (c :: l) := by
  cases l with
  | nil => rfl
  | cons b rest =>
    rw [noPair, Bool.and_eq_true_iff]
    refine ⟨?_, h⟩
    rcases hc with hc | hc
    · simp [hc]
    · simp [hc b rfl]

theorem noPair_no_q {p q : Char → Bool} (l : List Char)
    (h : ∀ c ∈ l, q c = false) : ∀ x, noPair p q (x :: l) := by
  induction l with
  | nil => intro x; rfl
  | cons b rest ih =>
    intro x
    rw [noPair, Bool.and_eq_true_iff]
    exact ⟨by simp [h b (List.mem_cons_self _ _)],
      ih (fun c hc => h c (List.mem_cons_of_mem _ hc)) b⟩

theorem noPair_append {p q : Char → Bool} (a b : List Char)
    (ha : noPair p q a) (hb : noPair p q b)
    (hj : ∀ x y, a.getLast? = some x → b.head? = some y → !(p x && q y)) :
    noPair p q (a ++ b) := by
  induction a with
  | nil => simpa using hb
  | cons c rest ih =>
    cases rest with
    | nil =>
      simp only [List.singleton_append]
      exact noPair_cons_of hb (by
        by_cases hp : p c = true
        · right
          intro y hy
          have := hj c y (by simp) hy
          simpa [hp] using this
        · left
          simpa using hp)
    | cons d rest' =>
      rw [List.cons_append]
      refine noPair_cons_of (ih (noPair_cons_elim ha) ?_) ?_
      · intro x y hx hy
        refine hj x y ?_ hy
        rw [List.getLast?_cons_cons]
        exact hx
      · by_cases hp : p c = true
        · right
          intro y hy
          simp only [List.cons_append, List.head?_cons, Option.some.injEq] at hy
          subst hy
          simpa [hp] using noPair_cons_pair ha
        · left
          simpa using hp

theorem noPair_left_part {p q : Char → Bool} (a t : List Char)
    (h : noPair p q (a ++ t)) : noPair p q a := by
  induction a with
  | nil => rfl
  | cons c rest ih =>
    cases rest with
    | nil => rfl
    | cons d rest' =>
      rw [List.cons_append] at h
      rw [noPair, Bool.and_eq_true_iff]
      have hp := noPair_cons_pair h
      exact ⟨by simpa using hp, ih (noPair_cons_elim h)⟩

/-! ## Flush lemmas: without any `>` ahead, the tag scanners copy -/

theorem subBrGo_no_gt (l : List Char) (hl : '>' ∉ l) :
    ∀ st : BrState, subBrGo st l = st.pend ++ l := by
  induction l with
  | nil => intro st; cases st <;> simp [subBrGo, BrState.pend]
  | cons c rest ih =>
    have hc : c ≠ '>' := fun he => hl (he ▸ List.mem_cons_self _ _)
    have hr : '>' ∉ rest := fun hm => hl (List.mem_cons_of_mem _ hm)
    intro st
    cases st with
    | n0 =>
      by_cases h1 : c = '<'
      · subst h1
        rw [subBrGo, if_pos rfl, ih hr .n1]
        rfl
      · rw [subBrGo, if_neg h1, ih hr .n0]
        rfl
    | n1 =>
      by_cases h1 : c = 'b' || c = 'B'
      · rw [subBrGo, if_pos h1, ih hr (.n2 c)]
        rfl
      · by_cases h2 : c = '<'
        · subst h2
          rw [subBrGo, if_neg h1, if_pos rfl, ih hr .n1]
          rfl
        · rw [subBrGo, if_neg h1, if_neg h2, ih hr .n0]
          rfl
    | n2 b =>
      by_cases h1 : c = 'r' || c = 'R'
      · rw [subBrGo, if_pos h1, ih hr (.n3 b c [])]
        rfl
      · by_cases h2 : c = '<'
        · subst h2
          rw [subBrGo, if_neg h1, if_pos rfl, ih hr .n1]
          rfl
        · rw [subBrGo, if_neg h1, if_neg h2, ih hr .n0]
          rfl
    | n3 b r ws =>
      by_cases h1 : isPyWs c
      · rw [subBrGo, if_pos h1, ih hr (.n3 b r (ws ++ [c]))]
        simp [BrState.pend]
      · by_cases h3 : c = '/'
        · subst h3
          rw [subBrGo, if_neg h1, if_neg (by decide), if_pos rfl, ih hr (.n4 b r ws)]
          simp [BrState.pend]
        · by_cases h2 : c = '<'
          · subst h2
            rw [subBrGo, if_neg h1, if_neg (by decide), if_neg (by decide),
              if_pos rfl, ih hr .n1]
            simp [BrState.pend]
          · rw [subBrGo, if_neg h1, if_neg hc, if_neg h3, if_neg h2, ih hr .n0]
            simp [BrState.pend]
    | n4 b r ws =>
      by_cases h2 : c = '<'
      · subst h2
        rw [subBrGo, if_neg (by decide), if_pos rfl, ih hr .n1]
        simp [BrState.pend]
      · rw [subBrGo, if_neg hc, if_neg h2, ih hr .n0]
        simp [BrState.pend]

theorem subPGo_no_gt (l : List Char) (hl : '>' ∉ l) :
    ∀ st : PState, subPGo st l = st.pend ++ l := by
  induction l with
  | nil => intro st; cases st <;> simp [subPGo, PState.pend]
  | cons c rest ih =>
    have hc : c ≠ '>' := fun he => hl (he ▸ List.mem_cons_self _ _)
    have hr : '>' ∉ rest := fun hm => hl (List.mem_cons_of_mem _ hm)
    intro st
    cases st with
    | m0 =>
      by_cases h1 : c = '<'
      · subst h1
        rw [subPGo, if_pos rfl, ih hr .m1]
        rfl
      · rw [subPGo, if_neg h1, ih hr .m0]
        rfl
    | m1 =>
      by_cases h1 : c = '/'
      · subst h1
        rw [subPGo, if_pos rfl, ih hr .m2]
        rfl
      · by_cases h2 : c = '<'
        · subst h2
          rw [subPGo, if_neg h1, if_pos rfl, ih hr .m1]
          rfl
        · rw [subPGo, if_neg h1, if_neg h2, ih hr .m0]
          rfl
    | m2 =>
      by_cases h1 : c = 'p' || c = 'P'
      · rw [subPGo, if_pos h1, ih hr (.m3 c [])]
        rfl
      · by_cases h2 : c = '<'
        · subst h2
          rw [subPGo, if_neg h1, if_pos rfl, ih hr .m1]
          rfl
        · rw [subPGo, if_neg h1, if_neg h2, ih hr .m0]
          rfl
    | m3 p ws =>
      by_cases h1 : isPyWs c
      · rw [subPGo, if_pos h1, ih hr (.m3 p (ws ++ [c]))]
        simp [PState.pend]
      · by_cases h2 : c = '<'
        · subst h2
          rw [subPGo, if_neg h1, if_neg (by decide), if_pos rfl, ih hr .m1]
          simp [PState.pend]
        · rw [subPGo, if_neg h1, if_neg hc, if_neg h2, ih hr .m0]
          simp [PState.pend]

theorem subTagGo_no_gt (l : List Char) (hl : '>' ∉ l) :
    subTagGo none l = l ∧ ∀ pend, subTagGo (some pend) l = '<' :: (pend ++ l) := by
  induction l with
  | nil => exact ⟨rfl, fun pend => by simp [subTagGo]⟩
  | cons c rest ih =>
    have hc : c ≠ '>' := fun he => hl (he ▸ List.mem_cons_self _ _)
    have hr : '>' ∉ rest := fun hm => hl (List.mem_cons_of_mem _ hm)
    constructor
    · by_cases h1 : c = '<'
      · subst h1
        rw [subTagGo, if_pos rfl, (ih hr).2 []]
        rfl
      · rw [subTagGo, if_neg h1, (ih hr).1]
    · intro pend
      rw [subTagGo, if_neg hc, (ih hr).2 (pend ++ [c])]
      simp

/-! ## Membership and head behaviour of the later stages -/

theorem noTagB_lt (l : List Char) :
    noTagB ('<' :: l) = ((l.head? = some '>' || !l.contains '>') && noTagB l) := by
  simp [noTagB]

theorem noTagB_of_no_gt (l : List Char) (h : '>' ∉ l) : noTagB l := by
  induction l with
  | nil => rfl
  | cons c rest ih =>
    have hr : '>' ∉ rest := fun hm => h (List.mem_cons_of_mem _ hm)
    by_cases hc : c = '<'
    · subst hc
      rw [noTagB_lt, Bool.and_eq_true_iff]
      exact ⟨Bool.or_eq_true_iff.mpr (Or.inr (not_contains_of_not_mem hr)), ih hr⟩
    · rw [noTagB_cons_ne _ hc]
      exact ih hr

theorem subNbsp_cons_ne (c : Char) (rest : List Char) (hc : c ≠ '&') :
    subNbsp (c :: rest) = c :: subNbsp rest := by
  rw [subNbsp]
  intro r h1 h2
  exact hc h1

theorem subAmp_cons_ne (c : Char) (rest : List Char) (hc : c ≠ '&') :
    subAmp (c :: rest) = c :: subAmp rest := by
  rw [subAmp]
  intro r h1 h2
  exact hc h1

theorem subNbsp_mem {c : Char} : ∀ l, c ∈ subNbsp l → c = ' ' ∨ c ∈ l := by
  intro l
  induction l using subNbsp.induct with
  | case1 rest ih =>
    intro h
    rw [subNbsp] at h
    rcases List.mem_cons.mp h with rfl | h
    · exact Or.inl rfl
    · rcases ih h with h | h
      · exact Or.inl h
      · right
        simp [h]
  | case2 d rest hne ih =>
    intro h
    have heq : subNbsp (d :: rest) = d :: subNbsp rest := by
      rw [subNbsp]
      exact hne
    rw [heq] at h
    rcases List.mem_cons.mp h with rfl | h
    · exact Or.inr (List.mem_cons_self _ _)
    · rcases ih h with h | h
      · exact Or.inl h
      · exact Or.inr (List.mem_cons_of_mem _ h)
  | case3 =>
    intro h
    rw [subNbsp] at h
    cases h

theorem subAmp_mem {c : Char} : ∀ l, c ∈ subAmp l → c = '&' ∨ c ∈ l := by
  intro l
  induction l using subAmp.induct with
  | case1 rest ih =>
    intro h
    rw [subAmp] at h
    rcases List.mem_cons.mp h with rfl | h
    · exact Or.inl rfl
    · rcases ih h with h | h
      · exact Or.inl h
      · right
        simp [h]
  | case2 d rest hne ih =>
    intro h
    have heq : subAmp (d :: rest) = d :: subAmp rest := by
      rw [subAmp]
      exact hne
    rw [heq] at h
    rcases List.mem_cons.mp h with rfl | h
    · exact Or.inr (List.mem_cons_self _ _)
    · rcases ih h with h | h
      · exact Or.inl h
      · exact Or.inr (List.mem_cons_of_mem _ h)
  | case3 =>
    intro h
    rw [subAmp] at h
    cases h

theorem flushRun_mem {c : Char} (run : List Char) (h : c ∈ flushRun run) :
    c = '\n' ∨ c ∈ run := by
  unfold flushRun at h
  by_cases hn : '\n' ∈ run
  · rw [if_pos hn] at h
    rcases List.mem_cons.mp h with rfl | h
    · exact Or.inl rfl
    · right
      rw [List.mem_reverse] at h
      have := (List.takeWhile_sublist (l := run.reverse) (· ≠ '\n')).mem h
      rwa [List.mem_reverse] at this
  · rw [if_neg hn] at h
    exact Or.inr h

theorem subWsNlGo_mem {c : Char} :
    ∀ l run, c ∈ subWsNlGo run l → c = '\n' ∨ c ∈ run ∨ c ∈ l := by
  intro l
  induction l with
  | nil =>
    intro run h
    rw [subWsNlGo] at h
    rcases flushRun_mem run h with h | h
    · exact Or.inl h
    · exact Or.inr (Or.inl h)
  | cons d rest ih =>
    intro run h
    rw [subWsNlGo] at h
    by_cases hw : isPyWs d
    · rw [if_pos hw] at h
      rcases ih (run ++ [d]) h with h | h | h
      · exact Or.inl h
      · rcases List.mem_append.mp h with h | h
        · exact Or.inr (Or.inl h)
        · simp only [List.mem_singleton] at h
          exact Or.inr (Or.inr (h ▸ List.mem_cons_self _ _))
      · exact Or.inr (Or.inr (List.mem_cons_of_mem _ h))
    · rw [if_neg hw] at h
      rcases List.mem_append.mp h with h | h
      · rcases flushRun_mem run h with h | h
        · exact Or.inl h
        · exact Or.inr (Or.inl h)
      · rcases List.mem_cons.mp h with rfl | h
        · exact Or.inr (Or.inr (List.mem_cons_self _ _))
        · rcases ih [] h with h | h | h
          · exact Or.inl h
          · cases h
          · exact Or.inr (Or.inr (List.mem_cons_of_mem _ h))

theorem subWsNlGo_nil_cons_nonws {c : Char} {rest : List Char}
    (hc : isPyWs c = false) :
    subWsNlGo [] (c :: rest) = c :: subWsNlGo [] rest := by
  rw [subWsNlGo, if_neg (by simp [hc])]
  simp [flushRun]

theorem subNlWsGo_mem {c : Char} : ∀ l b, c ∈ subNlWsGo b l → c ∈ l := by
  intro l
  induction l with
  | nil => intro b h; cases h
  | cons d rest ih =>
    intro b h
    rw [subNlWsGo] at h
    by_cases hb : b && isPyWs d
    · rw [if_pos hb] at h
      exact List.mem_cons_of_mem _ (ih true h)
    · rw [if_neg hb] at h
      rcases List.mem_cons.mp h with rfl | h
      · exact List.mem_cons_self _ _
      · exact List.mem_cons_of_mem _ (ih _ h)

theorem subNlWsGo_cons_emit {b : Bool} {c : Char} {rest : List Char}
    (h : (b && isPyWs c) = false) :
    subNlWsGo b (c :: rest) = c :: subNlWsGo (c = '\n') rest := by
  rw [subNlWsGo, if_neg (by simp [h])]

theorem subSpTabGo_mem {c : Char} : ∀ l b, c ∈ subSpTabGo b l → c = ' ' ∨ c ∈ l := by
  intro l
  induction l with
  | nil => intro b h; cases h
  | cons d rest ih =>
    intro b h
    rw [subSpTabGo] at h
    by_cases hs : isSpTab d
    · rw [if_pos hs] at h
      by_cases hb : b = true
      · subst hb
        rw [if_pos rfl] at h
        rcases ih true h with h | h
        · exact Or.inl h
        · exact Or.inr (List.mem_cons_of_mem _ h)
      · rw [if_neg hb] at h
        rcases List.mem_cons.mp h with rfl | h
        · exact Or.inl rfl
        · rcases ih true h with h | h
          · exact Or.inl h
          · exact Or.inr (List.mem_cons_of_mem _ h)
    · rw [if_neg hs] at h
      rcases List.mem_cons.mp h with rfl | h
      · exact Or.inr (List.mem_cons_self _ _)
      · rcases ih false h with h | h
        · exact Or.inl h
        · exact Or.inr (List.mem_cons_of_mem _ h)

theorem subSpTabGo_cons_emit {b : Bool} {c : Char} {rest : List Char}
    (h : isSpTab c = false) :
    subSpTabGo b (c :: rest) = c :: subSpTabGo false rest := by
  rw [subSpTabGo, if_neg (by simp [h])]

theorem dropTrailWs_cons (c : Char) (rest : List Char) :
    dropTrailWs (c :: rest) =
      (match dropTrailWs rest with
       | [] => if isPyWs c then [] else [c]
       | r => c :: r) := rfl

theorem dropTrailWs_mem {c : Char} : ∀ l, c ∈ dropTrailWs l → c ∈ l := by
  intro l
  induction l with
  | nil => intro h; cases h
  | cons d rest ih =>
    intro h
    rw [dropTrailWs_cons] at h
    cases hdr : dropTrailWs rest with
    | nil =>
      rw [hdr] at h
      by_cases hw : isPyWs d
      · rw [if_pos hw] at h
        cases h
      · rw [if_neg hw] at h
        simp only [List.mem_singleton] at h
        exact h ▸ List.mem_cons_self _ _
    | cons e r =>
      rw [hdr] at h
      rcases List.mem_cons.mp h with rfl | h
      · exact List.mem_cons_self _ _
      · exact List.mem_cons_of_mem _ (ih (hdr ▸ h))

theorem dropTrailWs_head (l : List Char) :
    dropTrailWs l = [] ∨ (dropTrailWs l).head? = l.head? := by
  cases l with
  | nil => exact Or.inl rfl
  | cons c rest =>
    rw [dropTrailWs_cons]
    cases hdr : dropTrailWs rest with
    | nil =>
      by_cases hw : isPyWs c
      · rw [if_pos hw]
        exact Or.inl rfl
      · rw [if_neg hw]
        exact Or.inr rfl
    | cons e r => exact Or.inr rfl

/-! ## `noTagB` is established by the tag stripper and preserved after -/

theorem subTagGo_noTag : ∀ l : List Char,
    noTagB (subTagGo none l) ∧
    ∀ pend, '>' ∉ pend → noTagB (subTagGo (some pend) l) := by
  intro l
  induction l with
  | nil =>
    refine ⟨rfl, fun pend hp => ?_⟩
    show noTagB ('<' :: pend)
    rw [noTagB_lt, Bool.and_eq_true_iff]
    exact ⟨Bool.or_eq_true_iff.mpr (Or.inr (not_contains_of_not_mem hp)),
      noTagB_of_no_gt pend hp⟩
  | cons c rest ih =>
    constructor
    · rw [subTagGo]
      by_cases hc : c = '<'
      · rw [if_pos hc]
        exact ih.2 [] (by simp)
      · rw [if_neg hc, noTagB_cons_ne _ hc]
        exact ih.1
    · intro pend hp
      rw [subTagGo]
      by_cases hc : c = '>'
      · rw [if_pos hc]
        cases pend with
        | nil =>
          simp only [List.isEmpty_nil, if_pos]
          rw [noTagB_lt, Bool.and_eq_true_iff]
          refine ⟨by simp, ?_⟩
          rw [noTagB_cons_ne _ (by decide)]
          exact ih.1
        | cons e p =>
          simp only [List.isEmpty_cons, Bool.false_eq_true, if_false]
          rw [noTagB_cons_ne _ (by decide)]
          exact ih.1
      · rw [if_neg hc]
        refine ih.2 (pend ++ [c]) ?_
        intro hm
        rcases List.mem_append.mp hm with hm | hm
        · exact hp hm
        · simp only [List.mem_singleton] at hm
          exact hc hm.symm

theorem subNbsp_noTag : ∀ l, noTagB l → noTagB (subNbsp l) := by
  intro l
  induction l using subNbsp.induct with
  | case1 rest ih =>
    intro h
    iterate 6 rw [noTagB_cons_ne _ (by decide)] at h
    rw [subNbsp, noTagB_cons_ne _ (by decide)]
    exact ih h
  | case2 d rest hne ih =>
    intro h
    have heq : subNbsp (d :: rest) = d :: subNbsp rest := by
      rw [subNbsp]
      exact hne
    rw [heq]
    by_cases hd : d = '<'
    · subst hd
      rw [noTagB_lt, Bool.and_eq_true_iff] at h ⊢
      obtain ⟨hcond, hrest⟩ := h
      refine ⟨?_, ih hrest⟩
      rcases Bool.or_eq_true_iff.mp hcond with hhd | hng
      · cases rest with
        | nil => simp at hhd
        | cons e r =>
          have he : e = '>' := by simpa using hhd
          subst he
          rw [subNbsp_cons_ne _ _ (by decide)]
          simp
      · have hnm : '>' ∉ rest := not_mem_of_not_contains hng
        have hout : '>' ∉ subNbsp rest := by
          intro hm
          rcases subNbsp_mem rest hm with h' | h'
          · exact absurd h' (by decide)
          · exact hnm h'
        exact Bool.or_eq_true_iff.mpr (Or.inr (not_contains_of_not_mem hout))
    · rw [noTagB_cons_ne _ hd] at h
      rw [noTagB_cons_ne _ hd]
      exact ih h
  | case3 => intro h; exact h

theorem subAmp_noTag : ∀ l, noTagB l → noTagB (subAmp l) := by
  intro l
  induction l using subAmp.induct with
  | case1 rest ih =>
    intro h
    iterate 5 rw [noTagB_cons_ne _ (by decide)] at h
    rw [subAmp, noTagB_cons_ne _ (by decide)]
    exact ih h
  | case2 d rest hne ih =>
    intro h
    have heq : subAmp (d :: rest) = d :: subAmp rest := by
      rw [subAmp]
      exact hne
    rw [heq]
    by_cases hd : d = '<'
    · subst hd
      rw [noTagB_lt, Bool.and_eq_true_iff] at h ⊢
      obtain ⟨hcond, hrest⟩ := h
      refine ⟨?_, ih hrest⟩
      rcases Bool.or_eq_true_iff.mp hcond with hhd | hng
      · cases rest with
        | nil => simp at hhd
        | cons e r =>
          have he : e = '>' := by simpa using hhd
          subst he
          rw [subAmp_cons_ne _ _ (by decide)]
          simp
      · have hnm : '>' ∉ rest := not_mem_of_not_contains hng
        have hout : '>' ∉ subAmp rest := by
          intro hm
          rcases subAmp_mem rest hm with h' | h'
          · exact absurd h' (by decide)
          · exact hnm h'
        exact Bool.or_eq_true_iff.mpr (Or.inr (not_contains_of_not_mem hout))
    · rw [noTagB_cons_ne _ hd] at h
      rw [noTagB_cons_ne _ hd]
      exact ih h
  | case3 => intro h; exact h

theorem subWsNlGo_noTag :
    ∀ l run, (∀ c ∈ run, isPyWs c = true) → noTagB l →
      noTagB (subWsNlGo run l) := by
  intro l
  induction l with
  | nil =>
    intro run hrun _
    rw [subWsNlGo]
    refine noTagB_of_no_lt _ ?_
    intro hm
    rcases flushRun_mem run hm with h | h
    · exact absurd h (by decide)
    · have := hrun _ h
      simp [isPyWs] at this
  | cons c rest ih =>
    intro run hrun h
    rw [subWsNlGo]
    by_cases hw : isPyWs c
    · rw [if_pos hw]
      refine ih (run ++ [c]) ?_ (noTagB_cons_elim h)
      intro d hd
      rcases List.mem_append.mp hd with hd | hd
      · exact hrun d hd
      · simp only [List.mem_singleton] at hd
        exact hd ▸ hw
    · rw [if_neg hw]
      refine noTagB_append_no_lt _ _ ?_ ?_
      · intro d hd he
        subst he
        rcases flushRun_mem run hd with h' | h'
        · exact absurd h' (by decide)
        · have := hrun _ h'
          simp [isPyWs] at this
      · by_cases hc : c = '<'
        · subst hc
          rw [noTagB_lt, Bool.and_eq_true_iff] at h
          obtain ⟨hcond, hrest⟩ := h
          rw [noTagB_lt, Bool.and_eq_true_iff]
          refine ⟨?_, ih [] (by simp) hrest⟩
          rcases Bool.or_eq_true_iff.mp hcond with hhd | hng
          · cases rest with
            | nil => simp at hhd
            | cons e r =>
              have he : e = '>' := by simpa using hhd
              subst he
              rw [subWsNlGo_nil_cons_nonws (by decide)]
              simp
          · have hnm : '>' ∉ rest := not_mem_of_not_contains hng
            have hout : '>' ∉ subWsNlGo [] rest := by
              intro hm
              rcases subWsNlGo_mem rest [] hm with h' | h' | h'
              · exact absurd h' (by decide)
              · cases h'
              · exact hnm h'
            exact Bool.or_eq_true_iff.mpr (Or.inr (not_contains_of_not_mem hout))
        · rw [noTagB_cons_ne _ hc] at h ⊢
          exact ih [] (by simp) h

theorem subNlWsGo_noTag : ∀ (l : List Char) (b : Bool), noTagB l →
    noTagB (subNlWsGo b l) := by
  intro l
  induction l with
  | nil => intro b _; exact rfl
  | cons c rest ih =>
    intro b h
    by_cases hb : (b && isPyWs c) = true
    · rw [subNlWsGo, if_pos hb]
      exact ih true (noTagB_cons_elim h)
    · rw [subNlWsGo_cons_emit (by simpa using hb)]
      by_cases hc : c = '<'
      · subst hc
        rw [noTagB_lt, Bool.and_eq_true_iff] at h
        obtain ⟨hcond, hrest⟩ := h
        rw [noTagB_lt, Bool.and_eq_true_iff]
        refine ⟨?_, ih _ hrest⟩
        rcases Bool.or_eq_true_iff.mp hcond with hhd | hng
        · cases rest with
          | nil => simp at hhd
          | cons e r =>
            have he : e = '>' := by simpa using hhd
            subst he
            rw [subNlWsGo_cons_emit (by decide)]
            simp
        · have hnm : '>' ∉ rest := not_mem_of_not_contains hng
          have hout : '>' ∉ subNlWsGo (('<' : Char) = '\n') rest := by
            intro hm
            exact hnm (subNlWsGo_mem rest _ hm)
          exact Bool.or_eq_true_iff.mpr (Or.inr (not_contains_of_not_mem hout))
      · rw [noTagB_cons_ne _ hc] at h ⊢
        exact ih _ h

theorem subSpTabGo_noTag : ∀ (l : List Char) (b : Bool), noTagB l →
    noTagB (subSpTabGo b l) := by
  intro l
  induction l with
  | nil => intro b _; exact rfl
  | cons c rest ih =>
    intro b h
    by_cases hs : isSpTab c = true
    · rw [subSpTabGo, if_pos hs]
      by_cases hb : b = true
      · subst hb
        rw [if_pos rfl]
        exact ih true (noTagB_cons_elim h)
      · rw [if_neg hb, noTagB_cons_ne _ (by decide)]
        exact ih true (noTagB_cons_elim h)
    · rw [subSpTabGo_cons_emit (by simpa using hs)]
      by_cases hc : c = '<'
      · subst hc
        rw [noTagB_lt, Bool.and_eq_true_iff] at h
        obtain ⟨hcond, hrest⟩ := h
        rw [noTagB_lt, Bool.and_eq_true_iff]
        refine ⟨?_, ih false hrest⟩
        rcases Bool.or_eq_true_iff.mp hcond with hhd | hng
        · cases rest with
          | nil => simp at hhd
          | cons e r =>
            have he : e = '>' := by simpa using hhd
            subst he
            rw [subSpTabGo_cons_emit (by decide)]
            simp
        · have hnm : '>' ∉ rest := not_mem_of_not_contains hng
          have hout : '>' ∉ subSpTabGo false rest := by
            intro hm
            rcases subSpTabGo_mem rest false hm with h' | h'
            · exact absurd h' (by decide)
            · exact hnm h'
          exact Bool.or_eq_true_iff.mpr (Or.inr (not_contains_of_not_mem hout))
      · rw [noTagB_cons_ne _ hc] at h ⊢
        exact ih false h

theorem noTagB_dropWhile (p : Char → Bool) :
    ∀ l, noTagB l → noTagB (l.dropWhile p) := by
  intro l
  induction l with
  | nil => intro h; exact h
  | cons c rest ih =>
    intro h
    rw [List.dropWhile_cons]
    by_cases hp : p c = true
    · rw [if_pos hp]
      exact ih (noTagB_cons_elim h)
    · rw [if_neg hp]
      exact h

theorem noTagB_dropTrailWs : ∀ l, noTagB l → noTagB (dropTrailWs l) := by
  intro l
  induction l with
  | nil => intro h; exact h
  | cons c rest ih =>
    intro h
    rw [dropTrailWs_cons]
    cases hdr : dropTrailWs rest with
    | nil =>
      by_cases hw : isPyWs c
      · rw [if_pos hw]
        rfl
      · rw [if_neg hw]
        exact noTagB_singleton c
    | cons e r =>
      by_cases hc : c = '<'
      · subst hc
        rw [noTagB_lt, Bool.and_eq_true_iff] at h
        obtain ⟨hcond, hrest⟩ := h
        rw [noTagB_lt, Bool.and_eq_true_iff]
        refine ⟨?_, hdr ▸ ih hrest⟩
        rcases Bool.or_eq_true_iff.mp hcond with hhd | hng
        · rcases dropTrailWs_head rest with hemp | hh
          · rw [hemp] at hdr
            cases hdr
          · rw [hdr] at hh
            simp only [List.head?_cons] at hh
            cases rest with
            | nil => simp at hhd
            | cons f r' =>
              have : f = '>' := by simpa using hhd
              subst this
              simp only [List.head?_cons] at hh
              rw [← hh]
              simp
        · have hnm : '>' ∉ rest := not_mem_of_not_contains hng
          have hout : '>' ∉ (e :: r) := by
            intro hm
            exact hnm (dropTrailWs_mem rest (hdr ▸ hm))
          exact Bool.or_eq_true_iff.mpr (Or.inr (not_contains_of_not_mem hout))
      · rw [noTagB_cons_ne _ hc] at h
        rw [noTagB_cons_ne _ hc]
        exact hdr ▸ ih h

/-- The normalized output satisfies `noTagB`: no tag pattern can match
on a second pass. -/
theorem stripHtmlL_noTag (l : List Char) : noTagB (stripHtmlL l) := by
  unfold stripHtmlL pyStripL
  refine noTagB_dropTrailWs _ (noTagB_dropWhile _ _ ?_)
  refine subSpTabGo_noTag _ _ ?_
  refine subNlWsGo_noTag _ _ ?_
  refine subWsNlGo_noTag _ [] (by simp) ?_
  refine subAmp_noTag _ ?_
  refine subNbsp_noTag _ ?_
  exact (subTagGo_noTag _).1

/-! ## Whitespace invariants: establishment -/

theorem takeWhile_append_all (p : Char → Bool) (a b : List Char)
    (ha : ∀ c ∈ a, p c = true) :
    (a ++ b).takeWhile p = a ++ b.takeWhile p := by
  induction a with
  | nil => simp
  | cons c rest ih =>
    rw [List.cons_append, List.takeWhile_cons, if_pos (ha c (List.mem_cons_self _ _)),
      ih fun d hd => ha d (List.mem_cons_of_mem _ hd)]
    rfl

theorem flushRun_of_nl_head (t : List Char) (ht : '\n' ∉ t) :
    flushRun ('\n' :: t) = '\n' :: t := by
  unfold flushRun
  rw [if_pos (List.mem_cons_self _ _)]
  rw [List.reverse_cons, takeWhile_append_all _ _ _ ?_]
  · simp
  · intro c hc
    rw [List.mem_reverse] at hc
    simp only [decide_eq_true_eq]
    exact fun he => ht (he ▸ hc)

theorem flushRun_no_nl (run : List Char) (h : '\n' ∉ run) : flushRun run = run := by
  unfold flushRun
  rw [if_neg h]

theorem flushRun_noPair_wsnl (run : List Char) :
    noPair isPyWs isNl (flushRun run) := by
  unfold flushRun
  by_cases hn : '\n' ∈ run
  · rw [if_pos hn]
    refine noPair_no_q _ ?_ '\n'
    intro c hc
    rw [List.mem_reverse] at hc
    have := List.mem_takeWhile_imp hc
    simp only [decide_eq_true_eq] at this
    simp [isNl, this]
  · rw [if_neg hn]
    cases run with
    | nil => rfl
    | cons c t =>
      refine noPair_no_q _ ?_ c
      intro d hd
      have : d ≠ '\n' := fun he => hn (he ▸ List.mem_cons_of_mem _ hd)
      simp [isNl, this]

theorem flushRun_ws (run : List Char) (h : ∀ c ∈ run, isPyWs c = true) :
    ∀ c ∈ flushRun run, isPyWs c = true := by
  intro c hc
  rcases flushRun_mem run hc with rfl | hc
  · decide
  · exact h c hc

theorem subWsNlGo_wsnl :
    ∀ l run, (∀ c ∈ run, isPyWs c = true) →
      noPair isPyWs isNl (subWsNlGo run l) := by
  intro l
  induction l with
  | nil =>
    intro run _
    rw [subWsNlGo]
    exact flushRun_noPair_wsnl run
  | cons c rest ih =>
    intro run hrun
    rw [subWsNlGo]
    by_cases hw : isPyWs c
    · rw [if_pos hw]
      refine ih (run ++ [c]) ?_
      intro d hd
      rcases List.mem_append.mp hd with hd | hd
      · exact hrun d hd
      · simp only [List.mem_singleton] at hd
        exact hd ▸ hw
    · rw [if_neg hw]
      refine noPair_append _ _ (flushRun_noPair_wsnl run) ?_ ?_
      · refine noPair_cons_of (ih [] (by simp)) ?_
        left
        simpa using hw
      · intro x y hx hy
        simp only [List.head?_cons, Option.some.injEq] at hy
        subst hy
        have : isNl c = false := by
          simp only [isNl, decide_eq_false_iff_not]
          intro he
          rw [he] at hw
          exact hw (by decide)
        simp [this]

theorem subNlWsGo_head_true (l : List Char) :
    ∀ d, (subNlWsGo true l).head? = some d → isPyWs d = false := by
  induction l with
  | nil => intro d h; cases h
  | cons c rest ih =>
    intro d h
    by_cases hw : isPyWs c
    · rw [subNlWsGo, if_pos (by simp [hw])] at h
      exact ih d h
    · rw [subNlWsGo_cons_emit (by simp [hw])] at h
      simp only [List.head?_cons, Option.some.injEq] at h
      exact h ▸ (by simpa using hw)

theorem subNlWsGo_nlws : ∀ (l : List Char) (b : Bool),
    noPair isNl isPyWs (subNlWsGo b l) := by
  intro l
  induction l with
  | nil => intro b; rfl
  | cons c rest ih =>
    intro b
    by_cases hb : (b && isPyWs c) = true
    · rw [subNlWsGo, if_pos hb]
      exact ih true
    · rw [subNlWsGo_cons_emit (by simpa using hb)]
      refine noPair_cons_of (ih _) ?_
      by_cases hc : c = '\n'
      · subst hc
        right
        intro y hy
        have := subNlWsGo_head_true rest y (by simpa using hy)
        exact this
      · left
        simp [isNl, hc]

theorem subSpTabGo_head_true (l : List Char) :
    ∀ d, (subSpTabGo true l).head? = some d → isSpTab d = false := by
  induction l with
  | nil => intro d h; cases h
  | cons c rest ih =>
    intro d h
    by_cases hs : isSpTab c
    · rw [subSpTabGo, if_pos hs, if_pos rfl] at h
      exact ih d h
    · rw [subSpTabGo_cons_emit (by simpa using hs)] at h
      simp only [List.head?_cons, Option.some.injEq] at h
      exact h ▸ (by simpa using hs)

theorem subSpTabGo_sptab : ∀ (l : List Char) (b : Bool),
    noPair isSpTab isSpTab (subSpTabGo b l) ∧ '\t' ∉ subSpTabGo b l := by
  intro l
  induction l with
  | nil => intro b; exact ⟨rfl, by simp [subSpTabGo]⟩
  | cons c rest ih =>
    intro b
    by_cases hs : isSpTab c
    · rw [subSpTabGo, if_pos hs]
      by_cases hb : b = true
      · subst hb
        rw [if_pos rfl]
        exact ih true
      · rw [if_neg hb]
        refine ⟨noPair_cons_of (ih true).1 ?_, ?_⟩
        · right
          intro y hy
          exact subSpTabGo_head_true rest y hy
        · intro hm
          rcases List.mem_cons.mp hm with he | hm
          · exact absurd he (by decide)
          · exact (ih true).2 hm
    · rw [subSpTabGo_cons_emit (by simpa using hs)]
      refine ⟨noPair_cons_of (ih false).1 (Or.inl (by simpa using hs)), ?_⟩
      intro hm
      rcases List.mem_cons.mp hm with he | hm
      · rw [← he] at hs
        exact hs (by decide)
      · exact (ih false).2 hm

/-! ## Whitespace invariants: preservation -/

theorem noPair_suffix {p q : Char → Bool} :
    ∀ a l : List Char, noPair p q (a ++ l) → noPair p q l := by
  intro a
  induction a with
  | nil => intro l h; exact h
  | cons c rest ih =>
    intro l h
    rw [List.cons_append] at h
    exact ih l (noPair_cons_elim h)

theorem noPair_dropWhile {p q : Char → Bool} (p' : Char → Bool) :
    ∀ l, noPair p q l → noPair p q (l.dropWhile p') := by
  intro l
  induction l with
  | nil => intro h; exact h
  | cons c rest ih =>
    intro h
    rw [List.dropWhile_cons]
    by_cases hp : p' c = true
    · rw [if_pos hp]
      exact ih (noPair_cons_elim h)
    · rw [if_neg hp]
      exact h

theorem dropTrailWs_split : ∀ l : List Char, ∃ t, l = dropTrailWs l ++ t := by
  intro l
  induction l with
  | nil => exact ⟨[], rfl⟩
  | cons c rest ih =>
    rw [dropTrailWs_cons]
    cases hdr : dropTrailWs rest with
    | nil =>
      by_cases hw : isPyWs c
      · rw [if_pos hw]
        exact ⟨c :: rest, rfl⟩
      · rw [if_neg hw]
        obtain ⟨t, ht⟩ := ih
        rw [hdr] at ht
        exact ⟨t, by simpa using ht⟩
    | cons e r =>
      obtain ⟨t, ht⟩ := ih
      rw [hdr] at ht
      exact ⟨t, by rw [List.cons_append, ← ht]⟩

theorem noPair_dropTrailWs {p q : Char → Bool} (l : List Char)
    (h : noPair p q l) : noPair p q (dropTrailWs l) := by
  obtain ⟨t, ht⟩ := dropTrailWs_split l
  exact noPair_left_part _ t (ht ▸ h)

theorem subNlWsGo_head_false (l : List Char) :
    (subNlWsGo false l).head? = l.head? := by
  cases l with
  | nil => rfl
  | cons c rest => rw [subNlWsGo_cons_emit (by simp)]; rfl

theorem subNlWsGo_pres_wsnl : ∀ (l : List Char) (b : Bool),
    noPair isPyWs isNl l → noPair isPyWs isNl (subNlWsGo b l) := by
  intro l
  induction l with
  | nil => intro b _; rfl
  | cons c rest ih =>
    intro b h
    by_cases hb : (b && isPyWs c) = true
    · rw [subNlWsGo, if_pos hb]
      exact ih true (noPair_cons_elim h)
    · rw [subNlWsGo_cons_emit (by simpa using hb)]
      refine noPair_cons_of (ih _ (noPair_cons_elim h)) ?_
      by_cases hw : isPyWs c
      · right
        intro y hy
        by_cases hc : c = '\n'
        · subst hc
          have := subNlWsGo_head_true rest y (by simpa using hy)
          simp only [isNl, decide_eq_false_iff_not]
          intro he
          rw [he] at this
          exact absurd this (by decide)
        · have hb' : (c = '\n') = False := by simp [hc]
          rw [show (decide (c = '\n')) = false by simp [hc]] at hy
          rw [subNlWsGo_head_false] at hy
          cases rest with
          | nil => cases hy
          | cons e r =>
            simp only [List.head?_cons, Option.some.injEq] at hy
            subst hy
            have := noPair_cons_pair h
            simpa [hw] using this
      · left
        simpa using hw

theorem subSpTabGo_skip_head (l : List Char) :
    ∀ c, isPyWs c = true → noPair isPyWs isNl (c :: l) →
      ∀ y, (subSpTabGo true l).head? = some y → isNl y = false := by
  induction l with
  | nil => intro c _ _ y hy; cases hy
  | cons d rest ih =>
    intro c hc h y hy
    by_cases hd : isSpTab d
    · rw [subSpTabGo, if_pos hd, if_pos rfl] at hy
      have hdws : isPyWs d = true := by
        rcases Bool.or_eq_true_iff.mp hd with h' | h' <;>
          simp only [decide_eq_true_eq] at h' <;> simp [isPyWs, h']
      exact ih d hdws (noPair_cons_elim h) y hy
    · rw [subSpTabGo_cons_emit (by simpa using hd)] at hy
      simp only [List.head?_cons, Option.some.injEq] at hy
      subst hy
      have := noPair_cons_pair h
      simpa [hc] using this

theorem subSpTabGo_pres_wsnl : ∀ (l : List Char) (b : Bool),
    noPair isPyWs isNl l → noPair isPyWs isNl (subSpTabGo b l) := by
  intro l
  induction l with
  | nil => intro b _; rfl
  | cons c rest ih =>
    intro b h
    by_cases hs : isSpTab c
    · have hcws : isPyWs c = true := by
        rcases Bool.or_eq_true_iff.mp hs with h' | h' <;>
          simp only [decide_eq_true_eq] at h' <;> simp [isPyWs, h']
      rw [subSpTabGo, if_pos hs]
      by_cases hb : b = true
      · subst hb
        rw [if_pos rfl]
        exact ih true (noPair_cons_elim h)
      · rw [if_neg hb]
        refine noPair_cons_of (ih true (noPair_cons_elim h)) ?_
        right
        intro y hy
        exact subSpTabGo_skip_head rest c hcws h y hy
    · rw [subSpTabGo_cons_emit (by simpa using hs)]
      refine noPair_cons_of (ih false (noPair_cons_elim h)) ?_
      by_cases hw : isPyWs c
      · right
        intro y hy
        cases rest with
        | nil => cases hy
        | cons e r =>
          by_cases he : isSpTab e
          · rw [subSpTabGo, if_pos he, if_neg (by simp)] at hy
            simp only [List.head?_cons, Option.some.injEq] at hy
            subst hy
            simp [isNl]
          · rw [subSpTabGo_cons_emit (by simpa using he)] at hy
            simp only [List.head?_cons, Option.some.injEq] at hy
            subst hy
            have := noPair_cons_pair h
            simpa [hw] using this
      · left
        simpa using hw

theorem subSpTabGo_pres_nlws : ∀ (l : List Char) (b : Bool),
    noPair isNl isPyWs l → noPair isNl isPyWs (subSpTabGo b l) := by
  intro l
  induction l with
  | nil => intro b _; rfl
  | cons c rest ih =>
    intro b h
    by_cases hs : isSpTab c
    · rw [subSpTabGo, if_pos hs]
      by_cases hb : b = true
      · subst hb
        rw [if_pos rfl]
        exact ih true (noPair_cons_elim h)
      · rw [if_neg hb]
        refine noPair_cons_of (ih true (noPair_cons_elim h)) ?_
        left
        simp [isNl]
    · rw [subSpTabGo_cons_emit (by simpa using hs)]
      refine noPair_cons_of (ih false (noPair_cons_elim h)) ?_
      by_cases hc : c = '\n'
      · subst hc
        right
        intro y hy
        cases rest with
        | nil => cases hy
        | cons e r =>
          have hpair := noPair_cons_pair h
          have hens : isPyWs e = false := by simpa [isNl] using hpair
          have hesp : isSpTab e = false := by
            cases he : isSpTab e
            · rfl
            · rcases Bool.or_eq_true_iff.mp he with h' | h' <;>
                simp only [decide_eq_true_eq] at h' <;>
                  (subst h'; simp [isPyWs] at hens)
          rw [subSpTabGo_cons_emit hesp] at hy
          simp only [List.head?_cons, Option.some.injEq] at hy
          subst hy
          exact hens
      · left
        simp [isNl, hc]

theorem subBr_id_of_noTag (l : List Char) (h : noTagB l) : subBrGo .n0 l = l := by
  induction l with
  | nil => rfl
  | cons c rest ih =>
    by_cases hc : c = '<'
    · subst hc
      rw [noTagB, if_pos rfl, Bool.and_eq_true_iff] at h
      rcases Bool.or_eq_true_iff.mp h.1 with hhd | hng
      · cases rest with
        | nil => simp at hhd
        | cons d r =>
          simp only [List.head?_cons, Option.some.injEq, decide_eq_true_eq] at hhd
          subst hhd
          have hr := ih h.2
          rw [subBrGo, if_pos rfl, subBrGo, if_neg (by decide), if_neg (by decide)]
          rw [subBrGo, if_neg (by decide)] at hr
          simp only [List.cons.injEq, true_and] at hr
          rw [hr]
      · have hng' : '>' ∉ rest := not_mem_of_not_contains hng
        rw [subBrGo, if_pos rfl, subBrGo_no_gt rest hng' .n1]
        rfl
    · rw [noTagB_cons_ne rest hc] at h
      rw [subBrGo, if_neg hc, ih h]

theorem subP_id_of_noTag (l : List Char) (h : noTagB l) : subPGo .m0 l = l := by
  induction l with
  | nil => rfl
  | cons c rest ih =>
    by_cases hc : c = '<'
    · subst hc
      rw [noTagB, if_pos rfl, Bool.and_eq_true_iff] at h
      rcases Bool.or_eq_true_iff.mp h.1 with hhd | hng
      · cases rest with
        | nil => simp at hhd
        | cons d r =>
          simp only [List.head?_cons, Option.some.injEq, decide_eq_true_eq] at hhd
          subst hhd
          have hr := ih h.2
          rw [subPGo, if_pos rfl, subPGo, if_neg (by decide), if_neg (by decide)]
          rw [subPGo, if_neg (by decide)] at hr
          simp only [List.cons.injEq, true_and] at hr
          rw [hr]
      · have hng' : '>' ∉ rest := not_mem_of_not_contains hng
        rw [subPGo, if_pos rfl, subPGo_no_gt rest hng' .m1]
        rfl
    · rw [noTagB_cons_ne rest hc] at h
      rw [subPGo, if_neg hc, ih h]

theorem subTag_id_of_noTag (l : List Char) (h : noTagB l) : subTagGo none l = l := by
  induction l with
  | nil => rfl
  | cons c rest ih =>
    by_cases hc : c = '<'
    · subst hc
      rw [noTagB, if_pos rfl, Bool.and_eq_true_iff] at h
      rcases Bool.or_eq_true_iff.mp h.1 with hhd | hng
      · cases rest with
        | nil => simp at hhd
        | cons d r =>
          simp only [List.head?_cons, Option.some.injEq, decide_eq_true_eq] at hhd
          subst hhd
          have hr := ih h.2
          rw [subTagGo, if_neg (by decide)] at hr
          rw [subTagGo, if_pos rfl, subTagGo, if_pos rfl]
          simp only [List.isEmpty_nil, if_pos]
          simp only [List.cons.injEq, true_and] at hr
          rw [hr]
      · have hng' : '>' ∉ rest := not_mem_of_not_contains hng
        rw [subTagGo, if_pos rfl, (subTagGo_no_gt rest hng').2 []]
        rfl
    · rw [noTagB_cons_ne rest hc] at h
      rw [subTagGo, if_neg hc, ih h]

/-! ## Identity of the whitespace stages on invariant text -/

theorem no_nl_tail : ∀ (t : List Char) (c : Char),
    (∀ d ∈ c :: t, isPyWs d = true) → noPair isPyWs isNl (c :: t) →
      '\n' ∉ t := by
  intro t
  induction t with
  | nil => intro c _ _ h; cases h
  | cons e t' ih =>
    intro c hws h hm
    rcases List.mem_cons.mp hm with he | hm
    · have hpair := noPair_cons_pair h
      rw [hws c (List.mem_cons_self _ _)] at hpair
      rw [← he] at hpair
      simp [isNl] at hpair
    · exact ih e (fun d hd => hws d (List.mem_cons_of_mem _ hd))
        (noPair_cons_elim h) hm

theorem flushRun_eq_self (run : List Char) (hws : ∀ c ∈ run, isPyWs c = true)
    (h : noPair isPyWs isNl run) : flushRun run = run := by
  cases run with
  | nil => simp [flushRun]
  | cons c t =>
    by_cases hn : '\n' ∈ c :: t
    · have ht : '\n' ∉ t := no_nl_tail t c hws h
      rcases List.mem_cons.mp hn with he | hm
      · rw [← he]
        exact flushRun_of_nl_head t ht
      · exact absurd hm ht
    · exact flushRun_no_nl _ hn

theorem subWsNlGo_id : ∀ (l run : List Char),
    (∀ c ∈ run, isPyWs c = true) → noPair isPyWs isNl (run ++ l) →
      subWsNlGo run l = run ++ l := by
  intro l
  induction l with
  | nil =>
    intro run hws h
    rw [subWsNlGo, List.append_nil]
    exact flushRun_eq_self run hws (by simpa using h)
  | cons c rest ih =>
    intro run hws h
    rw [subWsNlGo]
    by_cases hw : isPyWs c
    · rw [if_pos hw]
      have hws' : ∀ d ∈ run ++ [c], isPyWs d = true := by
        intro d hd
        rcases List.mem_append.mp hd with hd | hd
        · exact hws d hd
        · simp only [List.mem_singleton] at hd
          exact hd ▸ hw
      have hasc : (run ++ [c]) ++ rest = run ++ c :: rest := by
        simp
      rw [ih (run ++ [c]) hws' (by rw [hasc]; exact h), hasc]
    · rw [if_neg hw]
      rw [flushRun_eq_self run hws (noPair_left_part run (c :: rest) h),
        ih [] (by simp) (by simpa using noPair_cons_elim (noPair_suffix run _ h))]
      simp

theorem subNlWsGo_id : ∀ l : List Char, noPair isNl isPyWs l →
    subNlWsGo false l = l := by
  intro l
  induction l with
  | nil => intro _; rfl
  | cons c rest ih =>
    intro h
    rw [subNlWsGo_cons_emit (by simp)]
    by_cases hc : c = '\n'
    · subst hc
      rw [show (decide (('\n' : Char) = '\n')) = true from by decide]
      cases rest with
      | nil => rfl
      | cons e r =>
        have hpair := noPair_cons_pair h
        have hwe : isPyWs e = false := by simpa [isNl] using hpair
        rw [subNlWsGo, if_neg (by simp [hwe]), ← subNlWsGo_cons_emit (by simp [hwe]),
          ih (noPair_cons_elim h)]
    · rw [show (decide (c = '\n')) = false by simp [hc], ih (noPair_cons_elim h)]

theorem subSpTabGo_id : ∀ l : List Char, noPair isSpTab isSpTab l →
    '\t' ∉ l → subSpTabGo false l = l := by
  intro l
  induction l with
  | nil => intro _ _; rfl
  | cons c rest ih =>
    intro h1 h2
    have h2' : '\t' ∉ rest := fun hm => h2 (List.mem_cons_of_mem _ hm)
    by_cases hs : isSpTab c
    · have hsp : c = ' ' := by
        rcases Bool.or_eq_true_iff.mp hs with h' | h'
        · simpa using h'
        · simp only [decide_eq_true_eq] at h'
          exact absurd (h' ▸ List.mem_cons_self c rest) h2
      rw [subSpTabGo, if_pos hs, if_neg (by simp), hsp]
      cases rest with
      | nil => rfl
      | cons e r =>
        have hpair := noPair_cons_pair h1
        have hse : isSpTab e = false := by simpa [hs] using hpair
        rw [subSpTabGo, if_neg (by simp [hse]), ← subSpTabGo_cons_emit hse,
          ih (noPair_cons_elim h1) h2']
    · rw [subSpTabGo_cons_emit (by simpa using hs), ih (noPair_cons_elim h1) h2']

/-! ## Identity of `str.strip` and the escape rewrites -/

theorem lastNonWs_cons_ne {c : Char} {l : List Char} (h : l ≠ []) :
    lastNonWs (c :: l) = lastNonWs l := by
  cases l with
  | nil => exact absurd rfl h
  | cons e r => rfl

theorem lastNonWs_dropTrailWs : ∀ l : List Char, lastNonWs (dropTrailWs l) := by
  intro l
  induction l with
  | nil => rfl
  | cons c rest ih =>
    rw [dropTrailWs_cons]
    cases hdr : dropTrailWs rest with
    | nil =>
      by_cases hw : isPyWs c
      · rw [if_pos hw]
        rfl
      · rw [if_neg hw]
        simpa [lastNonWs] using hw
    | cons e r =>
      rw [lastNonWs_cons_ne (by simp)]
      rw [hdr] at ih
      exact ih

theorem dropTrailWs_id : ∀ l : List Char, lastNonWs l = true → dropTrailWs l = l := by
  intro l
  induction l with
  | nil => intro _; rfl
  | cons c rest ih =>
    intro h
    rw [dropTrailWs_cons]
    cases rest with
    | nil =>
      simp only [lastNonWs, Bool.not_eq_true'] at h
      rw [show dropTrailWs [] = [] from rfl]
      rw [if_neg (by simp [h])]
    | cons e r =>
      rw [lastNonWs_cons_ne (by simp)] at h
      rw [ih h]

theorem pyStripL_id (l : List Char) (h1 : firstNonWs l = true)
    (h2 : lastNonWs l = true) : pyStripL l = l := by
  unfold pyStripL
  cases l with
  | nil => rfl
  | cons c rest =>
    simp only [firstNonWs, Bool.not_eq_true'] at h1
    rw [List.dropWhile_cons, if_neg (by simp [h1])]
    exact dropTrailWs_id _ h2

theorem dropWhile_head_not (p : Char → Bool) :
    ∀ (x : List Char) (c : Char) (r : List Char),
      x.dropWhile p = c :: r → p c = false := by
  intro x
  induction x with
  | nil => intro c r h; cases h
  | cons d rest ih =>
    intro c r h
    rw [List.dropWhile_cons] at h
    by_cases hp : p d = true
    · rw [if_pos hp] at h
      exact ih c r h
    · rw [if_neg hp] at h
      cases h
      simpa using hp

theorem subNbsp_id : ∀ l : List Char,
    strContainsL ['&', 'n', 'b', 's', 'p', ';'] l = false → subNbsp l = l := by
  intro l
  induction l using subNbsp.induct with
  | case1 rest ih =>
    intro h
    rw [strContainsL] at h
    exfalso
    simp [List.isPrefixOf] at h
  | case2 d rest hne ih =>
    intro h
    rw [strContainsL, Bool.or_eq_false_iff] at h
    have heq : subNbsp (d :: rest) = d :: subNbsp rest := by
      rw [subNbsp]
      exact hne
    rw [heq, ih h.2]
  | case3 => intro _; rfl

theorem subAmp_id : ∀ l : List Char,
    strContainsL ['&', 'a', 'm', 'p', ';'] l = false → subAmp l = l := by
  intro l
  induction l using subAmp.induct with
  | case1 rest ih =>
    intro h
    rw [strContainsL] at h
    exfalso
    simp [List.isPrefixOf] at h
  | case2 d rest hne ih =>
    intro h
    rw [strContainsL, Bool.or_eq_false_iff] at h
    have heq : subAmp (d :: rest) = d :: subAmp rest := by
      rw [subAmp]
      exact hne
    rw [heq, ih h.2]
  | case3 => intro _; rfl

/-! ## The invariants hold of every `_strip_html` output -/

theorem stripHtmlL_wsnl (l : List Char) : noPair isPyWs isNl (stripHtmlL l) := by
  unfold stripHtmlL pyStripL subSpTab subNlWs subWsNl
  exact noPair_dropTrailWs _ (noPair_dropWhile _ _ (subSpTabGo_pres_wsnl _ _
    (subNlWsGo_pres_wsnl _ _ (subWsNlGo_wsnl _ [] (by simp)))))

theorem stripHtmlL_nlws (l : List Char) : noPair isNl isPyWs (stripHtmlL l) := by
  unfold stripHtmlL pyStripL subSpTab subNlWs
  exact noPair_dropTrailWs _ (noPair_dropWhile _ _ (subSpTabGo_pres_nlws _ _
    (subNlWsGo_nlws _ false)))

theorem stripHtmlL_sptab (l : List Char) :
    noPair isSpTab isSpTab (stripHtmlL l) := by
  unfold stripHtmlL pyStripL subSpTab
  exact noPair_dropTrailWs _ (noPair_dropWhile _ _ ((subSpTabGo_sptab _ false).1))

theorem stripHtmlL_no_tab (l : List Char) : '\t' ∉ stripHtmlL l := by
  intro hm
  unfold stripHtmlL pyStripL subSpTab at hm
  have hm1 := dropTrailWs_mem _ hm
  have hm2 := (List.dropWhile_sublist _).mem hm1
  exact (subSpTabGo_sptab _ false).2 hm2

theorem stripHtmlL_first (l : List Char) : firstNonWs (stripHtmlL l) := by
  unfold stripHtmlL pyStripL
  cases hd : (subSpTab (subNlWs (subWsNl (subAmp (subNbsp (subTag (subP
      (subBr l)))))))).dropWhile isPyWs with
  | nil => rfl
  | cons c r =>
    have hc := dropWhile_head_not isPyWs _ c r hd
    rcases dropTrailWs_head (c :: r) with hemp | hh
    · rw [hemp]
      rfl
    · cases hres : dropTrailWs (c :: r) with
      | nil => rfl
      | cons e r2 =>
        rw [hres] at hh
        simp only [List.head?_cons, Option.some.injEq] at hh
        subst hh
        simpa [firstNonWs] using hc

theorem stripHtmlL_last (l : List Char) : lastNonWs (stripHtmlL l) := by
  unfold stripHtmlL pyStripL
  exact lastNonWs_dropTrailWs _

/-- On text satisfying all the output invariants — and containing no
`&nbsp;` or `&amp;` occurrence — the whole normalization chain is the
identity. -/
theorem stripHtmlL_fixed (o : List Char)
    (hnb : strContainsL ['&', 'n', 'b', 's', 'p', ';'] o = false)
    (ha : strContainsL ['&', 'a', 'm', 'p', ';'] o = false)
    (htag : noTagB o) (hwsnl : noPair isPyWs isNl o) (hnlws : noPair isNl isPyWs o)
    (hsptab : noPair isSpTab isSpTab o) (htab : '\t' ∉ o)
    (hfirst : firstNonWs o) (hlast : lastNonWs o) :
    stripHtmlL o = o := by
  have e1 : subBr o = o := subBr_id_of_noTag o htag
  have e2 : subP o = o := subP_id_of_noTag o htag
  have e3 : subTag o = o := subTag_id_of_noTag o htag
  have e4 : subNbsp o = o := subNbsp_id o hnb
  have e5 : subAmp o = o := subAmp_id o ha
  have e6 : subWsNl o = o := subWsNlGo_id o [] (by simp) (by simpa using hwsnl)
  have e7 : subNlWs o = o := subNlWsGo_id o hnlws
  have e8 : subSpTab o = o := subSpTabGo_id o hsptab htab
  unfold stripHtmlL
  rw [e1, e2, e3, e4, e5, e6, e7, e8]
  exact pyStripL_id o hfirst hlast

/-! ## C3: the idempotence claim -/

/-- **C3, counterexample.** `_strip_html` is not idempotent:
`_strip_html "&amp;amp;" = "&amp;"`, whose second normalization decodes
the re-formed escape to `"&"`. -/
theorem c3_counterexample :
    _strip_html (_strip_html "&amp;amp;") ≠ _strip_html "&amp;amp;" := by decide

/-- **C3, amended.** The normalization is idempotent on every input
whose normalized output contains no `&nbsp;` and no `&amp;` occurrence;
escape decoding — which can re-form such an occurrence — is the only
source of non-idempotence. -/
theorem c3_idempotent_amended (s : String)
    (h1 : strContains (_strip_html s) "&nbsp;" = false)
    (h2 : strContains (_strip_html s) "&amp;" = false) :
    _strip_html (_strip_html s) = _strip_html s := by
  by_cases hs : s = ""
  · subst hs
    rfl
  · have hinner : _strip_html s = ⟨stripHtmlL s.data⟩ := by
      rw [_strip_html, if_neg hs]
    rw [hinner]
    by_cases ho : (⟨stripHtmlL s.data⟩ : String) = ""
    · rw [_strip_html, if_pos ho, ho]
    · rw [_strip_html, if_neg ho]
      have hd1 : ("&nbsp;" : String).data = ['&', 'n', 'b', 's', 'p', ';'] := by
        decide
      have hd2 : ("&amp;" : String).data = ['&', 'a', 'm', 'p', ';'] := by decide
      rw [hinner] at h1 h2
      have h1' : strContainsL ['&', 'n', 'b', 's', 'p', ';']
          (stripHtmlL s.data) = false := by
        rw [strContains] at h1
        rwa [hd1] at h1
      have h2' : strContainsL ['&', 'a', 'm', 'p', ';']
          (stripHtmlL s.data) = false := by
        rw [strContains] at h2
        rwa [hd2] at h2
      exact congrArg String.mk (stripHtmlL_fixed _ h1' h2'
        (stripHtmlL_noTag _) (stripHtmlL_wsnl _) (stripHtmlL_nlws _)
        (stripHtmlL_sptab _) (stripHtmlL_no_tab _)
        (stripHtmlL_first _) (stripHtmlL_last _))

/-- Witness for the amended C3 at the specification's own example
input, whose output `"Hi there"` is escape-free. -/
theorem c3_witness :
    strContains (_strip_html "<p>Hi&nbsp;there</p>") "&nbsp;" = false ∧
    strContains (_strip_html "<p>Hi&nbsp;there</p>") "&amp;" = false ∧
    _strip_html (_strip_html "<p>Hi&nbsp;there</p>") =
      _strip_html "<p>Hi&nbsp;there</p>" :=
  ⟨by decide, by decide,
    c3_idempotent_amended "<p>Hi&nbsp;there</p>" (by decide) (by decide)⟩
